import Mathlib

/-!
# nmrh: validation, complexity estimate and orchestration

A shallow embedding of `src/nmrh.go`.

* Go strings are modelled by Lean strings, compared through their character lists.
* The Go `error` interface is `Option GoError`; `none` is the nil error.
* Library calls whose code is not part of the repository (`url.ParseRequestURI`,
  `prose.NewDocument`, the network scrape) are parameters of the functions that call them.
-/

namespace Nmrh

/-! ## Library: strings -/

/-- Go `strings.HasPrefix` on character lists. -/
def hasPrefixChars : List Char → List Char → Bool
  | _, [] => true
  | [], _ :: _ => false
  | c :: s, p :: ps => c == p && hasPrefixChars s ps

/-- Go `strings.Contains` on character lists: some suffix of `s` starts with `sub`. -/
def containsChars : List Char → List Char → Bool
  | [], sub => hasPrefixChars [] sub
  | c :: s, sub => hasPrefixChars (c :: s) sub || containsChars s sub

/-- Go `strings.HasPrefix(s, p)`. -/
def stringsHasPrefix (s p : String) : Bool := hasPrefixChars s.data p.data

/-- Go `strings.Contains(s, sub)`. -/
def stringsContains (s sub : String) : Bool := containsChars s.data sub.data

/-- Go `strings.Join(xs, sep)`. -/
def stringsJoin (xs : List String) (sep : String) : String := sep.intercalate xs

/-! ## Library: `net/url` -/

/-- The fields of Go's `url.URL` that the program reads or copies. -/
structure URL where
  Scheme : String
  Host : String
  Path : String
  RawQuery : String
  Fragment : String
deriving DecidableEq, Repr

/-- The zero value of `url.URL`. -/
def URL.zero : URL := ⟨"", "", "", "", ""⟩

instance : Inhabited URL := ⟨URL.zero⟩

/-- Go `validOptionalPort`: empty, or a colon followed by decimal digits only. -/
def validOptionalPort : List Char → Bool
  | [] => true
  | c :: rest => c == ':' && rest.all (fun b => decide ('0' ≤ b) && decide (b ≤ '9'))

/-- Split a reversed host at its last colon: the reversed text before the colon and the
text from the colon on, or `none` when there is no colon. -/
def splitLastColon : List Char → List Char → Option (List Char × List Char)
  | [], _ => none
  | c :: revRest, acc =>
    if c == ':' then some (revRest.reverse, ':' :: acc) else splitLastColon revRest (c :: acc)

/-- Go `splitHostPort` restricted to its host result. -/
def splitHost (hostPort : List Char) : List Char :=
  let host :=
    match splitLastColon hostPort.reverse [] with
    | some (h, p) => if validOptionalPort p then h else hostPort
    | none => hostPort
  if hasPrefixChars host ['['] && hasPrefixChars host.reverse [']'] then
    (host.drop 1).take (host.length - 2)
  else host

/-- Go `(*URL).Hostname`: the host without a valid port and without IPv6 brackets. -/
def URL.Hostname (u : URL) : String := ⟨splitHost u.Host.data⟩

/-- Result of `url.ParseRequestURI`: the message of the parse error, or the URL. -/
abbrev ParseFn := String → Except String URL

/-- Position of the first `/` after `scheme://`, as (authority, path). -/
def splitAuthority : List Char → List Char → List Char × List Char
  | [], acc => (acc.reverse, [])
  | c :: rest, acc =>
    if c == '/' then (acc.reverse, c :: rest) else splitAuthority rest (c :: acc)

/-- Split at the first `://`, as (scheme, rest after the separator). -/
def splitScheme : List Char → List Char → Option (List Char × List Char)
  | ':' :: '/' :: '/' :: rest, acc => some (acc.reverse, rest)
  | c :: rest, acc => splitScheme rest (c :: acc)
  | [], _ => none

/-- Letters, digits, `.` and `-`: the characters of a plain host name. -/
def isHostChar (c : Char) : Bool := c.isAlphanum || c == '.' || c == '-'

/-- The characters of a plain path: those of a host name, `/`, `_` and `~`. -/
def isPathChar (c : Char) : Bool := isHostChar c || c == '/' || c == '_' || c == '~'

/-- A parser for the plain shape `scheme://host/path` only: a scheme of letters, a
non-empty host name without port, user info or brackets, and a path free of query,
fragment and escapes. On that shape it returns the scheme in lower case, the host and the
path, as `url.ParseRequestURI` does; every other input is refused. It instantiates the
`ParseFn` parameter for concrete evaluations; the general theorems hold for every
parser. -/
def parsePlainURI : ParseFn := fun raw =>
  match splitScheme raw.data [] with
  | none => .error "invalid URI for request"
  | some (scheme, rest) =>
    let (auth, path) := splitAuthority rest []
    if scheme.isEmpty || !scheme.all Char.isAlpha || auth.isEmpty
        || !auth.all isHostChar || !path.all isPathChar then
      .error "invalid URI for request"
    else .ok ⟨⟨scheme.map Char.toLower⟩, ⟨auth⟩, ⟨path⟩, "", ""⟩

/-! ## Errors and the resource model -/

/-- The error values of the program: its three error structs, and errors handed up
unchanged from a library. -/
inductive GoError where
  | ValidateError (Message : String)
  | ParseError (Message : String)
  | AnalyseError (Message : String)
  | Library (Message : String)
deriving DecidableEq, Repr

/-- The `Error()` methods. -/
def GoError.Error : GoError → String
  | .ValidateError m => "Validation Error: " ++ m
  | .ParseError m => "Parse Error: " ++ m
  | .AnalyseError m => "Analyse Error: " ++ m
  | .Library m => m

/-- The struct `ReadingResource`. `ResourceType` is a byte, `ReadTime` a `time.Duration`
(signed 64-bit count of nanoseconds). -/
structure ReadingResource where
  ResourceType : Nat
  RawURL : String
  ValidatedURL : URL := URL.zero
  RawContent : List String := []
  TokenisedContent : String := ""
  title : String := ""
  WordCount : Int := 0
  ReadTime : Int := 0
deriving DecidableEq, Repr

/-- `ValidateResource`: the resource after the call and the returned error. In the two
arxiv cases the failing branch executes `return err`, and `err` is the nil error of the
parse that succeeded. -/
def ValidateResource (parse : ParseFn) (r : ReadingResource) :
    ReadingResource × Option GoError :=
  match parse r.RawURL with
  | .error msg => (r, some (.ValidateError msg))
  | .ok u =>
    let err : Option GoError := none
    let host := u.Hostname
    let path := u.Path
    match r.ResourceType with
    | 0 => (r, none)
    | 1 =>
      if stringsContains path "/post" && stringsContains host "substack.com" then
        ({ r with ValidatedURL := u }, none)
      else (r, some (.ValidateError "Invalid Substack URL."))
    | 2 =>
      if stringsContains path "pdf" && host == "arxiv.org" then
        ({ r with ValidatedURL := u }, none)
      else (r, err)
    | 3 =>
      if stringsContains path "html" && host == "arxiv.org" then
        ({ r with ValidatedURL := u }, none)
      else (r, err)
    | _ => (r, some (.ValidateError "Invalid resource type."))

/-- `NewReadingResource`: a fresh resource, validated. -/
def NewReadingResource (parse : ParseFn) (resourceType : Nat) (url : String) :
    ReadingResource × Option GoError :=
  ValidateResource parse { ResourceType := resourceType, RawURL := url }

/-! ## Library: float64 arithmetic

A float64 is a finite rational (zero carries no sign), an infinity or NaN. Every
operation rounds its exact result to the nearest binary64 value, ties to even. The only
divisors in the program are conversions of integers, which are never the negative zero, so
the sign of zero is not tracked. -/

/-- A value of Go's `float64`. -/
inductive F64 where
  | fin (q : ℚ)
  | posInf
  | negInf
  | nan
deriving DecidableEq

/-- Round to the nearest integer, a tie to the even neighbour. -/
def roundHalfEven (q : ℚ) : ℤ :=
  let f := ⌊q⌋
  let r := q - f
  if r < 1 / 2 then f
  else if 1 / 2 < r then f + 1
  else if f % 2 = 0 then f else f + 1

/-- For `q > 0`: the integer `L` with `2 ^ L ≤ q < 2 ^ (L + 1)`. -/
def ilog2 (q : ℚ) : ℤ :=
  let k : ℤ := (Nat.log2 q.num.natAbs : ℤ) - (Nat.log2 q.den : ℤ)
  if (2 : ℚ) ^ k ≤ q then k else k - 1

/-- Exponent of the last place of the binary64 values next to `q ≠ 0`: 53 significant
bits, and never below the subnormal spacing `2 ^ (-1074)`. -/
def ulpExp (q : ℚ) : ℤ := max (ilog2 |q| - 52) (-1074)

/-- The binary64 value nearest to `q`, before the overflow check. -/
def roundFin (q : ℚ) : ℚ :=
  if q = 0 then 0 else (roundHalfEven (q / 2 ^ ulpExp q) : ℚ) * 2 ^ ulpExp q

/-- IEEE 754 rounding of an exact result to binary64 (round to nearest, ties to even). -/
def roundF64 (q : ℚ) : F64 :=
  let r := roundFin q
  if (2 : ℚ) ^ (1024 : ℤ) ≤ r then .posInf
  else if r ≤ -(2 : ℚ) ^ (1024 : ℤ) then .negInf
  else .fin r

/-- The conversion `float64(n)` of an integer. -/
def F64.ofInt (n : ℤ) : F64 := roundF64 n

/-- The float64 product. -/
def F64.mul : F64 → F64 → F64
  | .nan, _ => .nan
  | _, .nan => .nan
  | .fin a, .fin b => roundF64 (a * b)
  | .fin a, .posInf => if a = 0 then .nan else if 0 < a then .posInf else .negInf
  | .fin a, .negInf => if a = 0 then .nan else if 0 < a then .negInf else .posInf
  | .posInf, .fin b => if b = 0 then .nan else if 0 < b then .posInf else .negInf
  | .negInf, .fin b => if b = 0 then .nan else if 0 < b then .negInf else .posInf
  | .posInf, .posInf => .posInf
  | .posInf, .negInf => .negInf
  | .negInf, .posInf => .negInf
  | .negInf, .negInf => .posInf

/-- The float64 quotient; a finite value divided by zero is an infinity, or NaN for
`0 / 0`. -/
def F64.div : F64 → F64 → F64
  | .nan, _ => .nan
  | _, .nan => .nan
  | .fin a, .fin b =>
    if b = 0 then (if a = 0 then .nan else if 0 < a then .posInf else .negInf)
    else roundF64 (a / b)
  | .fin _, .posInf => .fin 0
  | .fin _, .negInf => .fin 0
  | .posInf, .fin b => if 0 ≤ b then .posInf else .negInf
  | .negInf, .fin b => if 0 ≤ b then .negInf else .posInf
  | .posInf, .posInf => .nan
  | .posInf, .negInf => .nan
  | .negInf, .posInf => .nan
  | .negInf, .negInf => .nan

/-- The float64 comparison `x <= y`; false when an operand is NaN. -/
def F64.le : F64 → F64 → Bool
  | .nan, _ => false
  | _, .nan => false
  | .negInf, _ => true
  | _, .posInf => true
  | .posInf, _ => false
  | _, .negInf => false
  | .fin a, .fin b => decide (a ≤ b)

/-- Truncation of a rational toward zero. -/
def truncQ (q : ℚ) : ℤ := if 0 ≤ q then ⌊q⌋ else ⌈q⌉

/-- Conversion of a float64 to a signed 64-bit integer (`int(x)`, `time.Duration(x)`):
the fraction is discarded. For a value that does not fit, Go leaves the result to the
implementation; `indef` is that result. -/
def F64.toInt64 (indef : F64 → ℤ) (x : F64) : ℤ :=
  match x with
  | .fin q =>
    if -(2 : ℤ) ^ 63 ≤ truncQ q ∧ truncQ q < (2 : ℤ) ^ 63 then truncQ q else indef x
  | _ => indef x

/-- Reduction of an integer to the signed 64-bit range (wrap-around of `int64`). -/
def wrap64 (n : ℤ) : ℤ := (n + 2 ^ 63) % 2 ^ 64 - 2 ^ 63

/-- The constant `time.Minute` in nanoseconds. -/
def timeMinute : ℤ := 60000000000

/-! ## Library: `prose` documents -/

/-- A `prose.Token`. -/
structure Token where
  Tag : String
  Text : String
  Label : String
deriving DecidableEq, Repr

/-- A `prose.Sentence`. -/
structure Sentence where
  Text : String
  Length : Nat
deriving DecidableEq, Repr

/-- What the program reads of a `prose.Document`: `doc.Tokens()` and `doc.Sentences()`. -/
structure Document where
  Tokens : List Token
  Sentences : List Sentence
deriving DecidableEq, Repr

/-- Result of `prose.NewDocument` on a text. -/
abbrev TokenizeFn := String → Except GoError Document

/-! ## The complexity estimate -/

/-- The tags that raise `depth` in the scan. -/
def isDepthTag (tag : String) : Bool :=
  stringsHasPrefix tag "VB" || tag == "IN" || tag == "WDT" || tag == "WP" || tag == "WRB"

/-- The tags that end a sentence in the scan. -/
def isTerminalTag (tag : String) : Bool :=
  tag == "." || tag == "!" || tag == "?"

/-- The state of the scan loop: the local variables `depth` and `maxSyntacticDepth`. -/
structure ScanState where
  depth : Nat
  maxSyntacticDepth : Nat
deriving DecidableEq, Repr

/-- One iteration of the loop over `doc.Tokens()`. -/
def scanStep (st : ScanState) (token : Token) : ScanState :=
  let tag := token.Tag
  if isDepthTag tag then { st with depth := st.depth + 1 }
  else if isTerminalTag tag then
    { depth := 0
      maxSyntacticDepth := if st.depth > st.maxSyntacticDepth then st.depth
                           else st.maxSyntacticDepth }
  else st

/-- The loop over `doc.Tokens()`, from `depth = 0` and `maxSyntacticDepth = 0`. -/
def scanTokens (tokens : List Token) : ScanState :=
  tokens.foldl scanStep ⟨0, 0⟩

/-- The value of `maxSyntacticDepth` after the loop. -/
def maxSyntacticDepth (tokens : List Token) : Nat :=
  (scanTokens tokens).maxSyntacticDepth

/-- The local `wordCount := int(float64(tokenCount) * 0.75)`. -/
def wordCount (indef : F64 → ℤ) (doc : Document) : ℤ :=
  F64.toInt64 indef (F64.mul (F64.ofInt doc.Tokens.length) (.fin (3 / 4)))

/-- The local `averageSentenceLength := float64(wordCount) / float64(sentenceCount)`. -/
def averageSentenceLength (indef : F64 → ℤ) (doc : Document) : F64 :=
  F64.div (F64.ofInt (wordCount indef doc)) (F64.ofInt doc.Sentences.length)

/-- The results of `GetComplexityAndReadingTimeEstimate`. -/
structure Estimate where
  complexity : F64
  estimate : F64
  err : Option GoError
deriving DecidableEq

/-- `GetComplexityAndReadingTimeEstimate`. -/
def GetComplexityAndReadingTimeEstimate (indef : F64 → ℤ) (doc : Document) (wpm : ℤ) :
    Estimate :=
  let tokenCount : ℤ := doc.Tokens.length
  let maxSyntacticDepth := maxSyntacticDepth doc.Tokens
  let averageSentenceLength := averageSentenceLength indef doc
  let complexity : F64 :=
    if maxSyntacticDepth ≤ 4 then
      if F64.le averageSentenceLength (.fin 20) then .fin 1 else .fin (3 / 2)
    else
      if F64.le averageSentenceLength (.fin 20) then .fin (3 / 2) else .fin 2
  let estimate := F64.div (F64.ofInt tokenCount) (F64.ofInt wpm)
  ⟨complexity, estimate, none⟩

/-- `AnalyseResource`: the resource after the call and the returned error. The console
output of the scoring branch is not part of the model. -/
def AnalyseResource (tokenize : TokenizeFn) (indef : F64 → ℤ) (r : ReadingResource)
    (wpm : ℤ) : ReadingResource × Option GoError :=
  match tokenize (stringsJoin r.RawContent " ") with
  | .error err => (r, some err)
  | .ok doc =>
    match r.ResourceType with
    | 0 => (r, none)
    | 1 | 2 | 3 =>
      let e := GetComplexityAndReadingTimeEstimate indef doc wpm
      match e.err with
      | some err => (r, some err)
      | none =>
        ({ r with ReadTime :=
            wrap64 (F64.toInt64 indef (F64.mul e.estimate e.complexity) * timeMinute) },
          none)
    | _ => (r, some (.AnalyseError "Invalid resource type."))

/-- The word count as the specification writes it: `W = floor(0.75 * T)`. -/
def specWordCount (T : Nat) : Nat := ⌊(3 / 4 : ℚ) * (T : ℚ)⌋₊

/-- The average sentence length as the specification writes it: the exact quotient
`W / S`. -/
def specAverageSentenceLength (doc : Document) : ℚ :=
  (specWordCount doc.Tokens.length : ℚ) / (doc.Sentences.length : ℚ)

/-! ## Sample inputs -/

/-- A document of 100 tokens, none of them a verb, conjunction, wh-word or terminal, in 5
sentences. -/
def plainDoc : Document :=
  ⟨List.replicate 100 ⟨"NN", "word", ""⟩, List.replicate 5 ⟨"words", 20⟩⟩

/-- A document with one token and no sentence. -/
def noSentenceDoc : Document := ⟨[⟨"NN", "word", ""⟩], []⟩

/-- A tokenizer that returns the same document for every text. -/
def constTokenize (doc : Document) : TokenizeFn := fun _ => .ok doc

/-- The conversion result amd64 gives for a float64 that does not fit in 64 bits. -/
def indefAmd64 : F64 → ℤ := fun _ => -(2 : ℤ) ^ 63

/-- A resource of the given kind with some scraped content. -/
def sampleResource (kind : Nat) : ReadingResource :=
  { ResourceType := kind, RawURL := "https://foo.substack.com/post/x",
    RawContent := ["word word"], ReadTime := 7 }

/-! ## The syntactic depth, stated over positions

The same quantity as `maxSyntacticDepth`, written the way the specification words it: a
maximum, over the positions of the sentence-terminal tokens, of the number of
depth-raising tokens between the previous terminal token and that position. -/

/-- The token at position `i` carries a sentence-terminal tag. -/
def isTerminalAt (tokens : List Token) (i : Nat) : Bool :=
  match tokens[i]? with
  | some t => isTerminalTag t.Tag
  | none => false

/-- The token at position `i` carries a depth-raising tag. -/
def isRaisingAt (tokens : List Token) (i : Nat) : Bool :=
  match tokens[i]? with
  | some t => isDepthTag t.Tag
  | none => false

/-- First position after the last sentence-terminal token before position `i`, or `0`
when no terminal token comes before `i`. -/
def sentenceStart (tokens : List Token) (i : Nat) : Nat :=
  match ((List.range i).filter (isTerminalAt tokens)).getLast? with
  | some j => j + 1
  | none => 0

/-- Number of depth-raising tokens strictly between the previous sentence-terminal token
(or the start of the sequence) and position `i`. -/
def raisedBefore (tokens : List Token) (i : Nat) : Nat :=
  ((List.range i).filter
    (fun k => decide (sentenceStart tokens i ≤ k) && isRaisingAt tokens k)).length

/-- Maximum of `raisedBefore` over the positions of the sentence-terminal tokens; `0` when
there is none. -/
def specMaxDepth (tokens : List Token) : Nat :=
  (((List.range tokens.length).filter (isTerminalAt tokens)).map
    (raisedBefore tokens)).foldr max 0

/-! ## The orchestration in `main` -/

/-- `ScrapeResource` fetches over the network and reads and writes files; what it leaves
in the resource and the error it returns are a parameter. -/
abbrev ScrapeFn := ReadingResource → ReadingResource × Option GoError

/-- The values `flag.Parse` stores: the four URL lists and the reading speed. -/
structure Flags where
  blogs : List String
  substackResources : List String
  arxivHtmlResources : List String
  arxivPdfResources : List String
  wpm : ℤ

/-- The locals `errors` and `resources` of `main` during the validation loops. The slice
`errors` is a `[]error`: an entry may be the nil error. -/
structure Validated where
  errors : List (Option GoError)
  resources : List ReadingResource

/-- Body of each validation loop: the check is appended when it is not nil, the resource
always. -/
def validateOne (parse : ParseFn) (kind : Nat) (st : Validated) (b : String) : Validated :=
  let created := NewReadingResource parse kind b
  let resource := created.1
  let check := created.2
  { errors := if check ≠ none then st.errors ++ [check] else st.errors
    resources := st.resources ++ [resource] }

/-- One validation loop of `main` over the URLs of a kind. -/
def validateLoop (parse : ParseFn) (kind : Nat) (urls : List String) (st : Validated) :
    Validated :=
  urls.foldl (validateOne parse kind) st

/-- The four validation loops of `main`, in source order: blogs (0), Substack (1),
arxiv PDF (2), arxiv HTML (3). -/
def validationPhase (parse : ParseFn) (f : Flags) : Validated :=
  validateLoop parse 3 f.arxivHtmlResources
    (validateLoop parse 2 f.arxivPdfResources
      (validateLoop parse 1 f.substackResources
        (validateLoop parse 0 f.blogs ⟨[], []⟩)))

/-- What a goroutine computes on its own copy of the resource before it touches the
shared slices. -/
structure TaskResult where
  parseErr : Option GoError
  analyseErr : Option GoError
  resourceCopy : ReadingResource

/-- The goroutine body up to its appends: scrape, then analyse, on `resourceCopy`. -/
def runTask (scrape : ScrapeFn) (tokenize : TokenizeFn) (indef : F64 → ℤ) (wpm : ℤ)
    (r : ReadingResource) : TaskResult :=
  let (r1, parseErr) := scrape r
  let (r2, analyseErr) := AnalyseResource tokenize indef r1 wpm
  ⟨parseErr, analyseErr, r2⟩

/-- The shared state of the fan-out: the slices `errors` and `parsedResources`, and for
each goroutine how many of its two appends it has done (`2` = finished, `wg.Done`). -/
structure MainState where
  errors : List (Option GoError)
  parsedResources : List ReadingResource
  pc : List Nat

/-- One atomic step of goroutine `i`: its append to `errors` first, its append to
`parsedResources` second. `none` when `i` is no goroutine or has finished. -/
def taskStep (tasks : List TaskResult) (i : Nat) (s : MainState) : Option MainState :=
  match tasks[i]?, s.pc[i]? with
  | some t, some 0 =>
    some { s with errors := s.errors ++ [t.parseErr, t.analyseErr], pc := s.pc.set i 1 }
  | some t, some 1 =>
    some { s with parsedResources := s.parsedResources ++ [t.resourceCopy]
                  pc := s.pc.set i 2 }
  | _, _ => none

/-- A schedule names the goroutine that takes each successive step. -/
def runSchedule (tasks : List TaskResult) : List Nat → MainState → Option MainState
  | [], s => some s
  | i :: rest, s => (taskStep tasks i s).bind (runSchedule tasks rest)

/-- `wg.Wait()` returns: every goroutine has finished. -/
def allDone (s : MainState) : Bool := s.pc.all (fun p => p == 2)

/-- `main` from the parsed flags to the return of `wg.Wait()`, under a schedule of the
goroutines' steps. -/
def mainRun (parse : ParseFn) (scrape : ScrapeFn) (tokenize : TokenizeFn) (indef : F64 → ℤ)
    (f : Flags) (schedule : List Nat) : Option MainState :=
  let v := validationPhase parse f
  runSchedule (v.resources.map (runTask scrape tokenize indef f.wpm)) schedule
    ⟨v.errors, [], List.replicate v.resources.length 0⟩

/-- The test `len(errors) == 0` that guards the message `No errors detected`. -/
def noErrorsDetected (s : MainState) : Bool := s.errors.length == 0

/-- Number of URLs of a kind whose validation returns an error. -/
def failedCount (parse : ParseFn) (kind : Nat) (urls : List String) : Nat :=
  (urls.filter (fun b => decide ((NewReadingResource parse kind b).2 ≠ none))).length

/-- The number `K` of inputs that fail validation. -/
def Flags.failed (parse : ParseFn) (f : Flags) : Nat :=
  failedCount parse 0 f.blogs + failedCount parse 1 f.substackResources
    + failedCount parse 2 f.arxivPdfResources + failedCount parse 3 f.arxivHtmlResources

/-- The number `N` of inputs. -/
def Flags.total (f : Flags) : Nat :=
  f.blogs.length + f.substackResources.length + f.arxivPdfResources.length
    + f.arxivHtmlResources.length

/-- Entries a goroutine has appended to `errors` when it has done `p` of its steps. -/
def errorsAppended (p : Nat) : Nat := if p = 0 then 0 else 2

/-- Entries a goroutine has appended to `parsedResources` when it has done `p` steps. -/
def resourcesAppended (p : Nat) : Nat := if p = 2 then 1 else 0

/-- The `N` inputs as (kind, rawURL) pairs, in the order in which `main` validates
them. -/
def Flags.inputs (f : Flags) : List (Nat × String) :=
  f.blogs.map (fun b => (0, b)) ++ f.substackResources.map (fun s => (1, s))
    ++ f.arxivPdfResources.map (fun ap => (2, ap))
    ++ f.arxivHtmlResources.map (fun ah => (3, ah))

/-- What goroutine `t` has appended to `errors` when it has done `p` of its steps. -/
def errorEntries (t : TaskResult) (p : Nat) : List (Option GoError) :=
  if p = 0 then [] else [t.parseErr, t.analyseErr]

/-- What goroutine `t` has appended to `parsedResources` when it has done `p` steps. -/
def resourceEntries (t : TaskResult) (p : Nat) : List ReadingResource :=
  if p = 2 then [t.resourceCopy] else []

/-- The entries the goroutines have appended so far, listed goroutine by goroutine. -/
def appendedBy {α : Type} (g : TaskResult → Nat → List α) :
    List TaskResult → List Nat → List α
  | t :: ts, p :: ps => g t p ++ appendedBy g ts ps
  | _, _ => []

/-- The schedule that runs the goroutines one after the other. -/
def sequentialSchedule : Nat → List Nat
  | 0 => []
  | n + 1 => sequentialSchedule n ++ [n, n]

/-! ## Theorems: strings -/

theorem hasPrefixChars_iff (s p : List Char) : hasPrefixChars s p = true ↔ p <+: s := by
  induction p generalizing s with
  | nil => simp [hasPrefixChars]
  | cons a p ih =>
    cases s with
    | nil => simp [hasPrefixChars]
    | cons c s =>
      simp only [hasPrefixChars, Bool.and_eq_true, beq_iff_eq, ih, List.cons_prefix_cons]
      constructor
      · rintro ⟨h1, h2⟩
        exact ⟨h1.symm, h2⟩
      · rintro ⟨h1, h2⟩
        exact ⟨h1.symm, h2⟩

theorem containsChars_iff (s sub : List Char) : containsChars s sub = true ↔ sub <:+: s := by
  induction s with
  | nil =>
    simp only [containsChars, hasPrefixChars_iff, List.prefix_nil, List.infix_nil]
  | cons c s ih =>
    simp only [containsChars, Bool.or_eq_true, hasPrefixChars_iff, ih, List.infix_cons_iff]

/-- `strings.Contains(s, sub)` holds exactly when `sub` is a contiguous part of `s`. -/
theorem stringsContains_iff (s sub : String) :
    stringsContains s sub = true ↔ sub.data <:+: s.data :=
  containsChars_iff s.data sub.data

/-! ## Theorems: validation -/

/-- C1 (the code at the failing input): for every URL that parses, `ValidateResource` with
kind 2 or 3 returns the nil error, whatever the host and the path: the rejecting branch
returns the nil `err` of the successful parse. The host and path test only decides
whether the parsed URL is stored. -/
theorem ValidateResource_arxiv_returns_nil (parse : ParseFn) (r : ReadingResource) (u : URL)
    (hparse : parse r.RawURL = .ok u) (hkind : r.ResourceType = 2 ∨ r.ResourceType = 3) :
    (ValidateResource parse r).2 = none
    ∧ (r.ResourceType = 2 → (ValidateResource parse r).1
        = if (stringsContains u.Path "pdf" && u.Hostname == "arxiv.org") = true
          then { r with ValidatedURL := u } else r)
    ∧ (r.ResourceType = 3 → (ValidateResource parse r).1
        = if (stringsContains u.Path "html" && u.Hostname == "arxiv.org") = true
          then { r with ValidatedURL := u } else r) := by
  unfold ValidateResource
  rw [hparse]
  refine ⟨?_, ?_, ?_⟩
  · rcases hkind with h | h <;> simp only [h] <;> split <;> rfl
  · intro h
    simp only [h]
    split <;> rfl
  · intro h
    simp only [h]
    split <;> rfl

theorem ValidateResource_arxiv_returns_nil_witness :
    parsePlainURI "https://arxiv.org/abs/1234"
        = .ok ⟨"https", "arxiv.org", "/abs/1234", "", ""⟩
      ∧ stringsContains "/abs/1234" "pdf" = false
      ∧ (ValidateResource parsePlainURI
          { ResourceType := 2, RawURL := "https://arxiv.org/abs/1234" }).2 = none :=
  ⟨rfl, by decide,
    (ValidateResource_arxiv_returns_nil parsePlainURI
      { ResourceType := 2, RawURL := "https://arxiv.org/abs/1234" }
      ⟨"https", "arxiv.org", "/abs/1234", "", ""⟩ rfl (Or.inl rfl)).1⟩

/-- C2 (the code at the failing input): for every URL that parses, `ValidateResource` with
kind 0 returns the nil error and the resource as it was, so a fresh resource keeps the zero
`ValidatedURL` although validation succeeded. -/
theorem ValidateResource_blog_leaves_url_unset (parse : ParseFn) (r : ReadingResource)
    (u : URL) (hparse : parse r.RawURL = .ok u) (hkind : r.ResourceType = 0) :
    ValidateResource parse r = (r, none) := by
  unfold ValidateResource
  rw [hparse]
  simp only [hkind]

theorem ValidateResource_blog_leaves_url_unset_witness :
    parsePlainURI "https://example.com/blog"
        = .ok ⟨"https", "example.com", "/blog", "", ""⟩
      ∧ (NewReadingResource parsePlainURI 0 "https://example.com/blog").2 = none
      ∧ (NewReadingResource parsePlainURI 0 "https://example.com/blog").1.ValidatedURL
          = URL.zero :=
  have h := ValidateResource_blog_leaves_url_unset parsePlainURI
    { ResourceType := 0, RawURL := "https://example.com/blog" }
    ⟨"https", "example.com", "/blog", "", ""⟩ rfl rfl
  ⟨rfl, by rw [NewReadingResource, h], by rw [NewReadingResource, h]⟩

/-- C3 (as amended): for every URL that parses, `ValidateResource` with kind 1 succeeds
exactly when the host contains `substack.com` and the path contains `/post` (with the
slash), then storing the parsed URL; in every other case it returns the `ValidateError`
with message `Invalid Substack URL.` and leaves the resource as it was. -/
theorem ValidateResource_substack (parse : ParseFn) (r : ReadingResource) (u : URL)
    (hparse : parse r.RawURL = .ok u) (hkind : r.ResourceType = 1) :
    ((ValidateResource parse r).2 = none ↔
        ("substack.com".data <:+: u.Hostname.data ∧ "/post".data <:+: u.Path.data))
    ∧ ((ValidateResource parse r).2 = none →
        (ValidateResource parse r).1 = { r with ValidatedURL := u })
    ∧ ((ValidateResource parse r).2 ≠ none →
        ValidateResource parse r = (r, some (.ValidateError "Invalid Substack URL."))) := by
  unfold ValidateResource
  rw [hparse]
  simp only [hkind]
  rw [← stringsContains_iff, ← stringsContains_iff]
  by_cases h : (stringsContains u.Path "/post" && stringsContains u.Hostname "substack.com")
      = true
  · rw [if_pos h]
    rw [Bool.and_eq_true] at h
    exact ⟨⟨fun _ => ⟨h.2, h.1⟩, fun _ => rfl⟩, fun _ => rfl, fun hne => absurd rfl hne⟩
  · rw [if_neg h]
    rw [Bool.and_eq_true] at h
    refine ⟨⟨fun hn => ?_, fun hc => absurd ⟨hc.2, hc.1⟩ h⟩, fun hn => ?_, fun _ => rfl⟩
    · exact absurd hn (by simp)
    · exact absurd hn (by simp)

theorem ValidateResource_substack_witness :
    parsePlainURI "https://foo.substack.com/post/x"
        = .ok ⟨"https", "foo.substack.com", "/post/x", "", ""⟩
      ∧ (NewReadingResource parsePlainURI 1 "https://foo.substack.com/post/x").2 = none
      ∧ (NewReadingResource parsePlainURI 1 "https://foo.substack.com/post/x").1.ValidatedURL
          = ⟨"https", "foo.substack.com", "/post/x", "", ""⟩ :=
  have h := ValidateResource_substack parsePlainURI
    { ResourceType := 1, RawURL := "https://foo.substack.com/post/x" }
    ⟨"https", "foo.substack.com", "/post/x", "", ""⟩ rfl rfl
  have hok := h.1.2 ⟨by decide, by decide⟩
  ⟨rfl, hok, by rw [NewReadingResource, h.2.1 hok]⟩

/-- C3 (counterexample to the claim as stated): `https://foo.substack.com/p/my-post`
parses, its host contains `substack.com` and its path contains `post`, and yet validation
as kind 1 fails, because the path does not contain `/post`. -/
theorem ValidateResource_substack_post_counterexample :
    parsePlainURI "https://foo.substack.com/p/my-post"
        = .ok ⟨"https", "foo.substack.com", "/p/my-post", "", ""⟩
      ∧ "substack.com".data <:+: (URL.Hostname ⟨"https", "foo.substack.com", "/p/my-post", "", ""⟩).data
      ∧ "post".data <:+: "/p/my-post".data
      ∧ (NewReadingResource parsePlainURI 1 "https://foo.substack.com/p/my-post").2
          = some (.ValidateError "Invalid Substack URL.") :=
  ⟨rfl, (stringsContains_iff _ _).1 (by decide), (stringsContains_iff _ _).1 (by decide),
    by decide⟩

/-! ## Theorems: the syntactic depth -/

theorem isDepthTag_of_terminal (tag : String) (h : isTerminalTag tag = true) :
    isDepthTag tag = false := by
  unfold isTerminalTag at h
  simp only [Bool.or_eq_true, beq_iff_eq] at h
  rcases h with (h | h) | h <;> subst h <;> decide

theorem isTerminalAt_append_lt (p : List Token) (t : Token) (k : Nat) (hk : k < p.length) :
    isTerminalAt (p ++ [t]) k = isTerminalAt p k := by
  unfold isTerminalAt
  rw [List.getElem?_append_left hk]

theorem isRaisingAt_append_lt (p : List Token) (t : Token) (k : Nat) (hk : k < p.length) :
    isRaisingAt (p ++ [t]) k = isRaisingAt p k := by
  unfold isRaisingAt
  rw [List.getElem?_append_left hk]

theorem isTerminalAt_append_length (p : List Token) (t : Token) :
    isTerminalAt (p ++ [t]) p.length = isTerminalTag t.Tag := by
  unfold isTerminalAt
  simp

theorem isRaisingAt_append_length (p : List Token) (t : Token) :
    isRaisingAt (p ++ [t]) p.length = isDepthTag t.Tag := by
  unfold isRaisingAt
  simp

theorem terminal_filter_append (p : List Token) (t : Token) (i : Nat) (hi : i ≤ p.length) :
    (List.range i).filter (isTerminalAt (p ++ [t])) = (List.range i).filter (isTerminalAt p) := by
  apply List.filter_congr
  intro k hk
  exact isTerminalAt_append_lt p t k (lt_of_lt_of_le (List.mem_range.1 hk) hi)

theorem sentenceStart_append_le (p : List Token) (t : Token) (i : Nat) (hi : i ≤ p.length) :
    sentenceStart (p ++ [t]) i = sentenceStart p i := by
  unfold sentenceStart
  rw [terminal_filter_append p t i hi]

theorem raisedBefore_append_le (p : List Token) (t : Token) (i : Nat) (hi : i ≤ p.length) :
    raisedBefore (p ++ [t]) i = raisedBefore p i := by
  unfold raisedBefore
  rw [sentenceStart_append_le p t i hi]
  congr 1
  apply List.filter_congr
  intro k hk
  rw [isRaisingAt_append_lt p t k (lt_of_lt_of_le (List.mem_range.1 hk) hi)]

theorem sentenceStart_le (p : List Token) (i : Nat) : sentenceStart p i ≤ i := by
  unfold sentenceStart
  split
  · rename_i j hj
    have hmem := List.mem_of_getLast?_eq_some hj
    have := List.mem_range.1 (List.mem_filter.1 hmem).1
    omega
  · exact Nat.zero_le _

theorem sentenceStart_append_succ (p : List Token) (t : Token) :
    sentenceStart (p ++ [t]) (p.length + 1)
      = if isTerminalTag t.Tag = true then p.length + 1 else sentenceStart p p.length := by
  unfold sentenceStart
  rw [List.range_succ, List.filter_append, terminal_filter_append p t p.length le_rfl]
  by_cases h : isTerminalTag t.Tag = true
  · simp [List.filter_cons, isTerminalAt_append_length, h]
  · simp [List.filter_cons, isTerminalAt_append_length, h]

theorem raisedBefore_append_succ (p : List Token) (t : Token) :
    raisedBefore (p ++ [t]) (p.length + 1)
      = if isTerminalTag t.Tag = true then 0
        else raisedBefore p p.length + (if isDepthTag t.Tag = true then 1 else 0) := by
  unfold raisedBefore
  rw [sentenceStart_append_succ]
  by_cases h : isTerminalTag t.Tag = true
  · rw [if_pos h, if_pos h, List.length_eq_zero, List.filter_eq_nil_iff]
    intro k hk
    have := List.mem_range.1 hk
    simp only [Bool.and_eq_true, decide_eq_true_eq, not_and]
    intro hle
    omega
  · rw [if_neg h, if_neg h, List.range_succ, List.filter_append, List.length_append]
    congr 1
    · congr 1
      apply List.filter_congr
      intro k hk
      rw [isRaisingAt_append_lt p t k (List.mem_range.1 hk)]
    · have hle := sentenceStart_le p p.length
      by_cases hd : isDepthTag t.Tag = true
      · simp [List.filter_cons, isRaisingAt_append_length, hd, hle]
      · simp [List.filter_cons, isRaisingAt_append_length, hd]

theorem foldr_max_concat (l : List Nat) (a : Nat) :
    (l ++ [a]).foldr max 0 = max (l.foldr max 0) a := by
  induction l with
  | nil => simp
  | cons x l ih =>
    simp only [List.cons_append, List.foldr_cons, ih, max_assoc]

theorem specMaxDepth_append (p : List Token) (t : Token) :
    specMaxDepth (p ++ [t])
      = if isTerminalTag t.Tag = true then max (specMaxDepth p) (raisedBefore p p.length)
        else specMaxDepth p := by
  unfold specMaxDepth
  have hmap : ((List.range p.length).filter (isTerminalAt (p ++ [t]))).map
        (raisedBefore (p ++ [t]))
      = ((List.range p.length).filter (isTerminalAt p)).map (raisedBefore p) := by
    rw [terminal_filter_append p t p.length le_rfl]
    apply List.map_congr_left
    intro k hk
    exact raisedBefore_append_le p t k (le_of_lt (List.mem_range.1 (List.mem_filter.1 hk).1))
  rw [List.length_append, List.length_singleton, List.range_succ, List.filter_append,
    List.map_append, hmap]
  by_cases h : isTerminalTag t.Tag = true
  · rw [if_pos h]
    have : (List.filter (isTerminalAt (p ++ [t])) [p.length]) = [p.length] := by
      simp [List.filter_cons, isTerminalAt_append_length, h]
    rw [this, List.map_singleton, foldr_max_concat, raisedBefore_append_le p t p.length le_rfl]
  · rw [if_neg h]
    have : (List.filter (isTerminalAt (p ++ [t])) [p.length]) = [] := by
      simp [List.filter_cons, isTerminalAt_append_length, h]
    rw [this, List.map_nil, List.append_nil]

/-- The loop invariant of the scan: after a prefix `p`, `depth` counts the depth-raising
tokens since the last terminal token and `maxSyntacticDepth` is the maximum over the
terminal tokens of `p`. -/
theorem scanTokens_eq (p : List Token) :
    scanTokens p = ⟨raisedBefore p p.length, specMaxDepth p⟩ := by
  induction p using List.reverseRecOn with
  | nil => rfl
  | append_singleton p t ih =>
    have hstep : scanTokens (p ++ [t]) = scanStep (scanTokens p) t := by
      unfold scanTokens
      rw [List.foldl_append]
      rfl
    rw [hstep, ih, List.length_append, List.length_singleton, raisedBefore_append_succ,
      specMaxDepth_append]
    unfold scanStep
    cases hd : isDepthTag t.Tag <;> cases ht : isTerminalTag t.Tag
    · simp [hd, ht]
    · have hmax : (if specMaxDepth p < raisedBefore p p.length then raisedBefore p p.length
          else specMaxDepth p) = max (specMaxDepth p) (raisedBefore p p.length) := by
        split
        · rename_i hlt
          exact (max_eq_right (le_of_lt hlt)).symm
        · rename_i hlt
          exact (max_eq_left (not_lt.1 hlt)).symm
      simp [hd, ht, hmax]
    · simp [hd, ht]
    · rw [isDepthTag_of_terminal _ ht] at hd
      exact absurd hd (by decide)

theorem scan_foldl_no_terminal (tail : List Token) (st : ScanState)
    (h : ∀ t ∈ tail, isTerminalTag t.Tag = false) :
    (tail.foldl scanStep st).maxSyntacticDepth = st.maxSyntacticDepth := by
  induction tail generalizing st with
  | nil => rfl
  | cons t tail ih =>
    rw [List.foldl_cons, ih _ (fun x hx => h x (List.mem_cons_of_mem _ hx))]
    have ht := h t (List.mem_cons_self _ _)
    unfold scanStep
    by_cases hd : isDepthTag t.Tag = true
    · simp only [hd, if_true]
    · simp [hd, ht]

/-- C9: the `maxSyntacticDepth` computed by the scan is the maximum, over the positions of
the sentence-terminal tokens, of the number of depth-raising tokens strictly between the
previous terminal token (or the start) and that position; it is `0` for a sequence without
terminal token, and tokens appended after the last terminal token do not change it. -/
theorem maxSyntacticDepth_eq_specMaxDepth (tokens : List Token) :
    maxSyntacticDepth tokens = specMaxDepth tokens
    ∧ ((∀ t ∈ tokens, isTerminalTag t.Tag = false) → maxSyntacticDepth tokens = 0)
    ∧ (∀ tail : List Token, (∀ t ∈ tail, isTerminalTag t.Tag = false) →
        maxSyntacticDepth (tokens ++ tail) = maxSyntacticDepth tokens) := by
  refine ⟨?_, ?_, ?_⟩
  · unfold maxSyntacticDepth
    rw [scanTokens_eq]
  · intro h
    exact scan_foldl_no_terminal tokens ⟨0, 0⟩ h
  · intro tail h
    unfold maxSyntacticDepth scanTokens
    rw [List.foldl_append]
    exact scan_foldl_no_terminal tail _ h

/-! ## Theorems: the orchestration -/

theorem validateLoop_lengths (parse : ParseFn) (kind : Nat) (urls : List String)
    (st : Validated) :
    (validateLoop parse kind urls st).errors.length
        = st.errors.length + failedCount parse kind urls
    ∧ (validateLoop parse kind urls st).resources.length
        = st.resources.length + urls.length := by
  induction urls generalizing st with
  | nil => simp [validateLoop, failedCount]
  | cons b urls ih =>
    have hstep : validateLoop parse kind (b :: urls) st
        = validateLoop parse kind urls (validateOne parse kind st b) := rfl
    have hcount : failedCount parse kind (b :: urls)
        = (if (NewReadingResource parse kind b).2 ≠ none then 1 else 0)
          + failedCount parse kind urls := by
      unfold failedCount
      by_cases h : (NewReadingResource parse kind b).2 ≠ none
      · rw [List.filter_cons_of_pos (by simpa using h), if_pos h, List.length_cons]
        omega
      · rw [List.filter_cons_of_neg (by simpa using h), if_neg h]
        omega
    rw [hstep, (ih _).1, (ih _).2, hcount]
    unfold validateOne
    by_cases h : (NewReadingResource parse kind b).2 ≠ none
    · have hc : (if (NewReadingResource parse kind b).2 ≠ none then 1 else 0) = 1 :=
        if_pos h
      simp only [if_pos h, hc, List.length_append, List.length_cons, List.length_nil]
      omega
    · have hc : (if (NewReadingResource parse kind b).2 ≠ none then 1 else 0) = 0 :=
        if_neg h
      simp only [if_neg h, hc, List.length_append, List.length_cons, List.length_nil]
      omega

theorem validationPhase_lengths (parse : ParseFn) (f : Flags) :
    (validationPhase parse f).errors.length = f.failed parse
    ∧ (validationPhase parse f).resources.length = f.total := by
  unfold validationPhase Flags.failed Flags.total
  simp only [(validateLoop_lengths parse _ _ _).1, (validateLoop_lengths parse _ _ _).2,
    List.length_nil]
  omega

theorem sum_map_set (f : Nat → Nat) (l : List Nat) (i a b : Nat) (h : l[i]? = some a) :
    ((l.set i b).map f).sum + f a = (l.map f).sum + f b := by
  induction l generalizing i with
  | nil => simp at h
  | cons x l ih =>
    cases i with
    | zero =>
      simp only [List.getElem?_cons_zero, Option.some.injEq] at h
      subst h
      simp only [List.set_cons_zero, List.map_cons, List.sum_cons]
      omega
    | succ i =>
      simp only [List.getElem?_cons_succ] at h
      have := ih i h
      simp only [List.set_cons_succ, List.map_cons, List.sum_cons]
      omega

/-- The invariant of the fan-out: each slice holds what the goroutines' completed steps
appended, on top of the `k` validation errors. -/
theorem taskStep_invariant (tasks : List TaskResult) (k i : Nat) (s s' : MainState)
    (hstep : taskStep tasks i s = some s')
    (herr : s.errors.length = k + (s.pc.map errorsAppended).sum)
    (hres : s.parsedResources.length = (s.pc.map resourcesAppended).sum) :
    s'.errors.length = k + (s'.pc.map errorsAppended).sum
    ∧ s'.parsedResources.length = (s'.pc.map resourcesAppended).sum
    ∧ s'.pc.length = s.pc.length := by
  unfold taskStep at hstep
  split at hstep
  · rename_i t ht hpc
    simp only [Option.some.injEq] at hstep
    subst hstep
    have h1 := sum_map_set errorsAppended s.pc i 0 1 hpc
    have h2 := sum_map_set resourcesAppended s.pc i 0 1 hpc
    have e0 : errorsAppended 0 = 0 := rfl
    have e1 : errorsAppended 1 = 2 := rfl
    have r0 : resourcesAppended 0 = 0 := rfl
    have r1 : resourcesAppended 1 = 0 := rfl
    rw [e0, e1] at h1
    rw [r0, r1] at h2
    refine ⟨?_, ?_, ?_⟩
    · simp only [List.length_append, List.length_cons, List.length_nil]
      omega
    · simp only [List.length_append, List.length_cons, List.length_nil]
      omega
    · simp only [List.length_set]
  · rename_i t ht hpc
    simp only [Option.some.injEq] at hstep
    subst hstep
    have h1 := sum_map_set errorsAppended s.pc i 1 2 hpc
    have h2 := sum_map_set resourcesAppended s.pc i 1 2 hpc
    have e1 : errorsAppended 1 = 2 := rfl
    have e2 : errorsAppended 2 = 2 := rfl
    have r1 : resourcesAppended 1 = 0 := rfl
    have r2 : resourcesAppended 2 = 1 := rfl
    rw [e1, e2] at h1
    rw [r1, r2] at h2
    refine ⟨?_, ?_, ?_⟩
    · simp only [List.length_append, List.length_cons, List.length_nil]
      omega
    · simp only [List.length_append, List.length_cons, List.length_nil]
      omega
    · simp only [List.length_set]
  · exact absurd hstep (by simp)

theorem runSchedule_invariant (tasks : List TaskResult) (k : Nat) (schedule : List Nat)
    (s s' : MainState) (hrun : runSchedule tasks schedule s = some s')
    (herr : s.errors.length = k + (s.pc.map errorsAppended).sum)
    (hres : s.parsedResources.length = (s.pc.map resourcesAppended).sum) :
    s'.errors.length = k + (s'.pc.map errorsAppended).sum
    ∧ s'.parsedResources.length = (s'.pc.map resourcesAppended).sum
    ∧ s'.pc.length = s.pc.length := by
  induction schedule generalizing s with
  | nil =>
    simp only [runSchedule, Option.some.injEq] at hrun
    subst hrun
    exact ⟨herr, hres, rfl⟩
  | cons i rest ih =>
    simp only [runSchedule] at hrun
    cases hstep : taskStep tasks i s with
    | none => rw [hstep] at hrun; exact absurd hrun (by simp)
    | some s1 =>
      rw [hstep] at hrun
      obtain ⟨h1, h2, h3⟩ := taskStep_invariant tasks k i s s1 hstep herr hres
      obtain ⟨g1, g2, g3⟩ := ih s1 hrun h1 h2
      exact ⟨g1, g2, g3.trans h3⟩

theorem sum_appended_of_all_done (pc : List Nat) (h : pc.all (fun p => p == 2) = true) :
    (pc.map errorsAppended).sum = 2 * pc.length
    ∧ (pc.map resourcesAppended).sum = pc.length := by
  induction pc with
  | nil => simp
  | cons p pc ih =>
    simp only [List.all_cons, Bool.and_eq_true, beq_iff_eq] at h
    obtain ⟨hp, hrest⟩ := h
    obtain ⟨h1, h2⟩ := ih hrest
    subst hp
    have e2 : errorsAppended 2 = 2 := rfl
    have r2 : resourcesAppended 2 = 1 := rfl
    simp only [List.map_cons, List.sum_cons, List.length_cons, h1, h2, e2, r2]
    omega

/-- Lengths of the two slices when `wg.Wait()` returns, under any schedule. -/
theorem mainRun_lengths (parse : ParseFn) (scrape : ScrapeFn) (tokenize : TokenizeFn)
    (indef : F64 → ℤ) (f : Flags) (schedule : List Nat) (s : MainState)
    (hrun : mainRun parse scrape tokenize indef f schedule = some s)
    (hdone : allDone s = true) :
    s.errors.length = f.failed parse + 2 * f.total ∧ s.parsedResources.length = f.total := by
  unfold mainRun at hrun
  obtain ⟨hk, hn⟩ := validationPhase_lengths parse f
  have hzero : ∀ n : Nat, ((List.replicate n 0).map errorsAppended).sum = 0
      ∧ ((List.replicate n 0).map resourcesAppended).sum = 0 := by
    intro n
    induction n with
    | zero => exact ⟨rfl, rfl⟩
    | succ n ih =>
      have e0 : errorsAppended 0 = 0 := rfl
      have r0 : resourcesAppended 0 = 0 := rfl
      rw [List.replicate_succ, List.map_cons, List.sum_cons, List.map_cons, List.sum_cons,
        ih.1, ih.2, e0, r0]
      exact ⟨rfl, rfl⟩
  obtain ⟨h1, h2, h3⟩ := runSchedule_invariant _ (f.failed parse) schedule _ s hrun
    (by dsimp only; rw [(hzero _).1, hk]; rfl) (by dsimp only; rw [(hzero _).2]; rfl)
  obtain ⟨g1, g2⟩ := sum_appended_of_all_done s.pc hdone
  simp only [List.length_replicate] at h3
  rw [h1, h2, g1, g2, h3, hn]
  exact ⟨rfl, rfl⟩

theorem runSchedule_append (tasks : List TaskResult) (a b : List Nat) (s : MainState) :
    runSchedule tasks (a ++ b) s = (runSchedule tasks a s).bind (runSchedule tasks b) := by
  induction a generalizing s with
  | nil => rfl
  | cons i a ih =>
    simp only [List.cons_append, runSchedule]
    cases taskStep tasks i s with
    | none => rfl
    | some s1 => exact ih s1

theorem sequentialSchedule_runs (tasks : List TaskResult) (e : List (Option GoError))
    (n : Nat) (hn : n ≤ tasks.length) :
    ∃ s, runSchedule tasks (sequentialSchedule n) ⟨e, [], List.replicate tasks.length 0⟩
        = some s
      ∧ s.pc = List.replicate n 2 ++ List.replicate (tasks.length - n) 0 := by
  induction n with
  | zero => exact ⟨_, rfl, by simp⟩
  | succ n ih =>
    obtain ⟨s, hs, hpc⟩ := ih (Nat.le_of_succ_le hn)
    have hlt : n < tasks.length := hn
    obtain ⟨m, hm⟩ : ∃ m, tasks.length - n = m + 1 := ⟨tasks.length - n - 1, by omega⟩
    have hm' : tasks.length - (n + 1) = m := by omega
    have htask : tasks[n]? = some (tasks[n]) := List.getElem?_eq_getElem hlt
    have hget0 : s.pc[n]? = some 0 := by
      rw [hpc, hm, List.getElem?_append_right (by simp)]
      simp
    have hset1 : s.pc.set n 1 = List.replicate n 2 ++ 1 :: List.replicate m 0 := by
      rw [hpc, hm, List.set_append_right _ _ (by simp)]
      simp [List.replicate_succ]
    have hset2 : (List.replicate n 2 ++ 1 :: List.replicate m 0).set n 2
        = List.replicate (n + 1) 2 ++ List.replicate m 0 := by
      rw [List.set_append_right _ _ (by simp)]
      simp [List.replicate_succ']
    have hget1 : (List.replicate n 2 ++ 1 :: List.replicate m 0)[n]? = some 1 := by
      rw [List.getElem?_append_right (by simp)]
      simp
    refine ⟨{ errors := s.errors ++ [tasks[n].parseErr, tasks[n].analyseErr]
              parsedResources := s.parsedResources ++ [tasks[n].resourceCopy]
              pc := List.replicate (n + 1) 2 ++ List.replicate m 0 }, ?_, ?_⟩
    · simp only [sequentialSchedule]
      rw [runSchedule_append, hs]
      simp only [Option.bind, runSchedule, taskStep, htask, hget0, hset1, hget1, hset2]
    · rw [hm']

/-- Some schedule lets every goroutine finish, so that `wg.Wait()` returns. -/
theorem mainRun_completes (parse : ParseFn) (scrape : ScrapeFn) (tokenize : TokenizeFn)
    (indef : F64 → ℤ) (f : Flags) :
    ∃ schedule s, mainRun parse scrape tokenize indef f schedule = some s
      ∧ allDone s = true := by
  obtain ⟨s, hs, hpc⟩ := sequentialSchedule_runs
    ((validationPhase parse f).resources.map (runTask scrape tokenize indef f.wpm))
    (validationPhase parse f).errors
    ((validationPhase parse f).resources.map (runTask scrape tokenize indef f.wpm)).length
    le_rfl
  refine ⟨sequentialSchedule (validationPhase parse f).resources.length, s, ?_, ?_⟩
  · unfold mainRun
    simp only [List.length_map] at hs ⊢
    exact hs
  · unfold allDone
    rw [hpc]
    simp

theorem validateLoop_contents (parse : ParseFn) (kind : Nat) (urls : List String)
    (st : Validated) :
    (validateLoop parse kind urls st).errors
        = st.errors ++ (urls.map (fun b => (NewReadingResource parse kind b).2)).filter
            (fun check => check.isSome)
    ∧ (validateLoop parse kind urls st).resources
        = st.resources ++ urls.map (fun b => (NewReadingResource parse kind b).1) := by
  induction urls generalizing st with
  | nil => simp [validateLoop]
  | cons b urls ih =>
    have hstep : validateLoop parse kind (b :: urls) st
        = validateLoop parse kind urls (validateOne parse kind st b) := rfl
    rw [hstep, (ih _).1, (ih _).2]
    unfold validateOne
    cases hcheck : (NewReadingResource parse kind b).2 with
    | none => simp [hcheck]
    | some e => simp [hcheck]

theorem validationPhase_contents (parse : ParseFn) (f : Flags) :
    (validationPhase parse f).errors
        = (f.inputs.map (fun p => (NewReadingResource parse p.1 p.2).2)).filter
            (fun check => check.isSome)
    ∧ (validationPhase parse f).resources
        = f.inputs.map (fun p => (NewReadingResource parse p.1 p.2).1) := by
  unfold validationPhase Flags.inputs
  simp only [(validateLoop_contents parse _ _ _).1, (validateLoop_contents parse _ _ _).2,
    List.map_append, List.filter_append, List.map_map, List.nil_append, List.append_assoc]
  exact ⟨rfl, rfl⟩

theorem inputs_length (f : Flags) : f.inputs.length = f.total := by
  unfold Flags.inputs Flags.total
  simp only [List.length_append, List.length_map]

theorem appendedBy_set {α : Type} (g : TaskResult → Nat → List α) (tasks : List TaskResult)
    (pc : List Nat) (i a b : Nat) (t : TaskResult) (x : List α)
    (ht : tasks[i]? = some t) (hp : pc[i]? = some a) (hg : g t b = g t a ++ x) :
    (appendedBy g tasks (pc.set i b)).Perm (appendedBy g tasks pc ++ x) := by
  induction tasks generalizing pc i with
  | nil => simp at ht
  | cons t0 ts ih =>
    cases pc with
    | nil => simp at hp
    | cons p0 ps =>
      cases i with
      | zero =>
        simp only [List.getElem?_cons_zero, Option.some.injEq] at ht hp
        subst ht
        subst hp
        simp only [List.set_cons_zero, appendedBy]
        rw [hg, List.append_assoc, List.append_assoc]
        exact List.perm_append_comm.append_left _
      | succ i =>
        simp only [List.getElem?_cons_succ] at ht hp
        simp only [List.set_cons_succ, appendedBy]
        rw [List.append_assoc]
        exact (ih ps i ht hp).append_left _

theorem appendedBy_replicate_zero {α : Type} (g : TaskResult → Nat → List α)
    (hg : ∀ t, g t 0 = []) (tasks : List TaskResult) (n : Nat) :
    appendedBy g tasks (List.replicate n 0) = [] := by
  induction tasks generalizing n with
  | nil => rfl
  | cons t ts ih =>
    cases n with
    | zero => rfl
    | succ n =>
      simp only [List.replicate_succ, appendedBy, hg, ih, List.append_nil]

theorem appendedBy_all_done {α : Type} (g : TaskResult → Nat → List α)
    (tasks : List TaskResult) (pc : List Nat) (hlen : pc.length = tasks.length)
    (hdone : pc.all (fun p => p == 2) = true) :
    appendedBy g tasks pc = tasks.flatMap (fun t => g t 2) := by
  induction tasks generalizing pc with
  | nil => cases pc <;> rfl
  | cons t ts ih =>
    cases pc with
    | nil => simp at hlen
    | cons p ps =>
      simp only [List.all_cons, Bool.and_eq_true, beq_iff_eq] at hdone
      simp only [List.length_cons, Nat.add_right_cancel_iff] at hlen
      obtain ⟨hp, hrest⟩ := hdone
      subst hp
      simp only [appendedBy, ih ps hlen hrest, List.flatMap_cons]

/-- The invariant of the fan-out on the contents of the two slices: `errors` is the
validation errors followed by a rearrangement of what the goroutines have appended so far,
and `parsedResources` is a rearrangement of the copies appended so far. -/
theorem taskStep_contents (tasks : List TaskResult) (e0 : List (Option GoError)) (i : Nat)
    (s s' : MainState) (hstep : taskStep tasks i s = some s')
    (herr : ∃ rest, s.errors = e0 ++ rest
      ∧ rest.Perm (appendedBy errorEntries tasks s.pc))
    (hres : s.parsedResources.Perm (appendedBy resourceEntries tasks s.pc)) :
    (∃ rest, s'.errors = e0 ++ rest ∧ rest.Perm (appendedBy errorEntries tasks s'.pc))
    ∧ s'.parsedResources.Perm (appendedBy resourceEntries tasks s'.pc) := by
  obtain ⟨rest, hrest, hperm⟩ := herr
  unfold taskStep at hstep
  split at hstep
  · rename_i t ht hpc
    simp only [Option.some.injEq] at hstep
    subst hstep
    have he := appendedBy_set errorEntries tasks s.pc i 0 1 t [t.parseErr, t.analyseErr]
      ht hpc rfl
    have hr := appendedBy_set resourceEntries tasks s.pc i 0 1 t [] ht hpc rfl
    rw [List.append_nil] at hr
    refine ⟨⟨rest ++ [t.parseErr, t.analyseErr], ?_, ?_⟩, ?_⟩
    · simp only [hrest, List.append_assoc]
    · exact (hperm.append_right _).trans he.symm
    · exact hres.trans hr.symm
  · rename_i t ht hpc
    simp only [Option.some.injEq] at hstep
    subst hstep
    have he := appendedBy_set errorEntries tasks s.pc i 1 2 t [] ht hpc rfl
    have hr := appendedBy_set resourceEntries tasks s.pc i 1 2 t [t.resourceCopy]
      ht hpc rfl
    rw [List.append_nil] at he
    refine ⟨⟨rest, hrest, ?_⟩, ?_⟩
    · exact hperm.trans he.symm
    · exact (hres.append_right _).trans hr.symm
  · exact absurd hstep (by simp)

theorem runSchedule_contents (tasks : List TaskResult) (e0 : List (Option GoError))
    (schedule : List Nat) (s s' : MainState)
    (hrun : runSchedule tasks schedule s = some s')
    (herr : ∃ rest, s.errors = e0 ++ rest
      ∧ rest.Perm (appendedBy errorEntries tasks s.pc))
    (hres : s.parsedResources.Perm (appendedBy resourceEntries tasks s.pc)) :
    (∃ rest, s'.errors = e0 ++ rest ∧ rest.Perm (appendedBy errorEntries tasks s'.pc))
    ∧ s'.parsedResources.Perm (appendedBy resourceEntries tasks s'.pc) := by
  induction schedule generalizing s with
  | nil =>
    simp only [runSchedule, Option.some.injEq] at hrun
    subst hrun
    exact ⟨herr, hres⟩
  | cons i rest ih =>
    simp only [runSchedule] at hrun
    cases hstep : taskStep tasks i s with
    | none => rw [hstep] at hrun; exact absurd hrun (by simp)
    | some s1 =>
      rw [hstep] at hrun
      obtain ⟨h1, h2⟩ := taskStep_contents tasks e0 i s s1 hstep herr hres
      exact ih s1 hrun h1 h2

theorem runSchedule_pc_length (tasks : List TaskResult) (schedule : List Nat)
    (s s' : MainState) (hrun : runSchedule tasks schedule s = some s') :
    s'.pc.length = s.pc.length := by
  induction schedule generalizing s with
  | nil =>
    simp only [runSchedule, Option.some.injEq] at hrun
    subst hrun
    rfl
  | cons i rest ih =>
    simp only [runSchedule] at hrun
    cases hstep : taskStep tasks i s with
    | none => rw [hstep] at hrun; exact absurd hrun (by simp)
    | some s1 =>
      rw [hstep] at hrun
      have hlen : s1.pc.length = s.pc.length := by
        unfold taskStep at hstep
        split at hstep
        · simp only [Option.some.injEq] at hstep
          subst hstep
          simp only [List.length_set]
        · simp only [Option.some.injEq] at hstep
          subst hstep
          simp only [List.length_set]
        · exact absurd hstep (by simp)
      exact (ih s1 hrun).trans hlen

/-- C7: the `N` inputs are the (kind, rawURL) pairs of `f.inputs`, of which `K` fail
validation. Under every schedule of the goroutines' atomic appends that lets `wg.Wait()`
return (and one exists), `main` ends with exactly `N` entries in `parsedResources`: a
rearrangement of the scraped and analysed copy of every input's resource, those that
failed validation included. `errors` has at least `K` entries: it starts with the
validation error of every input that failed, none dropped and in input order, followed by a
rearrangement of the scrape result and the analysis result of every input. -/
theorem main_processes_all_resources (parse : ParseFn) (scrape : ScrapeFn)
    (tokenize : TokenizeFn) (indef : F64 → ℤ) (f : Flags) :
    f.inputs.length = f.total
    ∧ ((f.inputs.map (fun p => (NewReadingResource parse p.1 p.2).2)).filter
        (fun check => check.isSome)).length = f.failed parse
    ∧ (∃ schedule s, mainRun parse scrape tokenize indef f schedule = some s
        ∧ allDone s = true)
    ∧ ∀ schedule s, mainRun parse scrape tokenize indef f schedule = some s →
        allDone s = true →
        s.parsedResources.length = f.total
        ∧ f.failed parse ≤ s.errors.length
        ∧ s.parsedResources.Perm (f.inputs.map (fun p =>
            (AnalyseResource tokenize indef
              (scrape (NewReadingResource parse p.1 p.2).1).1 f.wpm).1))
        ∧ (∀ p ∈ f.inputs, ∀ e, (NewReadingResource parse p.1 p.2).2 = some e →
            some e ∈ s.errors)
        ∧ ∃ rest, s.errors
            = (f.inputs.map (fun p => (NewReadingResource parse p.1 p.2).2)).filter
                (fun check => check.isSome) ++ rest
          ∧ rest.Perm (f.inputs.flatMap (fun p =>
              [(scrape (NewReadingResource parse p.1 p.2).1).2,
                (AnalyseResource tokenize indef
                  (scrape (NewReadingResource parse p.1 p.2).1).1 f.wpm).2])) := by
  obtain ⟨hverr, hvres⟩ := validationPhase_contents parse f
  obtain ⟨hk, hn⟩ := validationPhase_lengths parse f
  refine ⟨inputs_length f, ?_, mainRun_completes parse scrape tokenize indef f, ?_⟩
  · rw [← hverr, hk]
  intro schedule s hrun hdone
  obtain ⟨h1, h2⟩ := mainRun_lengths parse scrape tokenize indef f schedule s hrun hdone
  unfold mainRun at hrun
  dsimp only at hrun
  have hlen := runSchedule_pc_length _ schedule _ s hrun
  simp only [List.length_replicate] at hlen
  obtain ⟨⟨rest, hrest, hperm⟩, hres⟩ := runSchedule_contents _
    (validationPhase parse f).errors schedule _ s hrun
    ⟨[], by simp, by
      dsimp only
      rw [appendedBy_replicate_zero errorEntries (fun _ => rfl)]⟩
    (by
      dsimp only
      rw [appendedBy_replicate_zero resourceEntries (fun _ => rfl)])
  have hlen' : s.pc.length
      = ((validationPhase parse f).resources.map
          (runTask scrape tokenize indef f.wpm)).length := by
    rw [hlen, List.length_map]
  rw [appendedBy_all_done _ _ _ hlen' hdone] at hperm hres
  have hresEq : ((validationPhase parse f).resources.map
        (runTask scrape tokenize indef f.wpm)).flatMap (fun t => resourceEntries t 2)
      = f.inputs.map (fun p => (AnalyseResource tokenize indef
          (scrape (NewReadingResource parse p.1 p.2).1).1 f.wpm).1) := by
    rw [hvres]
    generalize f.inputs = l
    induction l with
    | nil => rfl
    | cons p l ih =>
      simp only [List.map_cons, List.flatMap_cons, ih]
      rfl
  have herrEq : ((validationPhase parse f).resources.map
        (runTask scrape tokenize indef f.wpm)).flatMap (fun t => errorEntries t 2)
      = f.inputs.flatMap (fun p =>
          [(scrape (NewReadingResource parse p.1 p.2).1).2,
            (AnalyseResource tokenize indef
              (scrape (NewReadingResource parse p.1 p.2).1).1 f.wpm).2]) := by
    rw [hvres]
    generalize f.inputs = l
    induction l with
    | nil => rfl
    | cons p l ih =>
      simp only [List.map_cons, List.flatMap_cons, ih]
      rfl
  rw [hresEq] at hres
  rw [herrEq] at hperm
  rw [hverr] at hrest
  refine ⟨h2, by omega, hres, ?_, rest, hrest, hperm⟩
  intro p hp e he
  rw [hrest]
  apply List.mem_append_left
  rw [List.mem_filter]
  refine ⟨?_, rfl⟩
  rw [← he]
  exact List.mem_map.2 ⟨p, hp, rfl⟩

/-- C10: under every schedule that lets `wg.Wait()` return (and one exists), the slice
`errors` ends with exactly `K + 2 * N` entries, the nil results of stages that succeeded
included; so the test `len(errors) == 0` holds exactly when there is no input. -/
theorem main_error_count (parse : ParseFn) (scrape : ScrapeFn)
    (tokenize : TokenizeFn) (indef : F64 → ℤ) (f : Flags) :
    (∃ schedule s, mainRun parse scrape tokenize indef f schedule = some s
        ∧ allDone s = true)
    ∧ ∀ schedule s, mainRun parse scrape tokenize indef f schedule = some s →
        allDone s = true →
        s.errors.length = f.failed parse + 2 * f.total
        ∧ (noErrorsDetected s = true ↔ f.total = 0) := by
  refine ⟨mainRun_completes parse scrape tokenize indef f, ?_⟩
  intro schedule s hrun hdone
  obtain ⟨h1, h2⟩ := mainRun_lengths parse scrape tokenize indef f schedule s hrun hdone
  refine ⟨h1, ?_⟩
  unfold noErrorsDetected
  rw [beq_iff_eq, h1]
  constructor
  · intro h
    omega
  · intro h
    have hk : f.failed parse ≤ f.total := by
      unfold Flags.failed Flags.total failedCount
      have := fun (k : Nat) (l : List String) => List.length_filter_le
        (fun b => decide ((NewReadingResource parse k b).2 ≠ none)) l
      have h0 := this 0 f.blogs
      have h1 := this 1 f.substackResources
      have h2 := this 2 f.arxivPdfResources
      have h3 := this 3 f.arxivHtmlResources
      omega
    omega

/-! ## Theorems: float64 rounding -/

theorem roundHalfEven_intCast (n : ℤ) : roundHalfEven (n : ℚ) = n := by
  unfold roundHalfEven
  simp

theorem floor_le_roundHalfEven (q : ℚ) : ⌊q⌋ ≤ roundHalfEven q := by
  unfold roundHalfEven
  dsimp only
  split_ifs <;> omega

theorem roundHalfEven_le_floor_succ (q : ℚ) : roundHalfEven q ≤ ⌊q⌋ + 1 := by
  unfold roundHalfEven
  dsimp only
  split_ifs <;> omega

theorem roundHalfEven_mono {x y : ℚ} (h : x ≤ y) : roundHalfEven x ≤ roundHalfEven y := by
  rcases lt_or_eq_of_le (Int.floor_mono h) with hlt | heq
  · calc roundHalfEven x ≤ ⌊x⌋ + 1 := roundHalfEven_le_floor_succ x
      _ ≤ ⌊y⌋ := hlt
      _ ≤ roundHalfEven y := floor_le_roundHalfEven y
  · unfold roundHalfEven
    dsimp only
    rw [heq]
    split_ifs <;> first | omega | (exfalso; linarith)

theorem two_zpow_pos (k : ℤ) : (0 : ℚ) < 2 ^ k := zpow_pos (by norm_num) k

theorem two_zpow_le {m n : ℤ} (h : m ≤ n) : (2 : ℚ) ^ m ≤ 2 ^ n :=
  (zpow_le_zpow_iff_right₀ (by norm_num)).2 h

theorem two_zpow_lt_iff {m n : ℤ} : (2 : ℚ) ^ m < 2 ^ n ↔ m < n :=
  zpow_lt_zpow_iff_right₀ (by norm_num)

theorem log2_bracket (n d : ℕ) (hn : 0 < n) (hd : 0 < d) :
    (2 : ℚ) ^ ((Nat.log2 n : ℤ) - (Nat.log2 d : ℤ) - 1) ≤ (n : ℚ) / d
    ∧ (n : ℚ) / d < (2 : ℚ) ^ ((Nat.log2 n : ℤ) - (Nat.log2 d : ℤ) + 1) := by
  have ha1 : ((2 : ℚ) ^ (Nat.log2 n)) ≤ (n : ℚ) := by
    exact_mod_cast Nat.log2_self_le (by omega)
  have ha2 : (n : ℚ) < (2 : ℚ) ^ (Nat.log2 n + 1) := by
    exact_mod_cast Nat.lt_log2_self
  have hb1 : ((2 : ℚ) ^ (Nat.log2 d)) ≤ (d : ℚ) := by
    exact_mod_cast Nat.log2_self_le (by omega)
  have hb2 : (d : ℚ) < (2 : ℚ) ^ (Nat.log2 d + 1) := by
    exact_mod_cast Nat.lt_log2_self
  have hdq : (0 : ℚ) < (d : ℚ) := by exact_mod_cast hd
  have hnq : (0 : ℚ) < (n : ℚ) := by exact_mod_cast hn
  have hp : ∀ m : ℕ, (0 : ℚ) < 2 ^ m := fun m => pow_pos (by norm_num) m
  have hk : ∀ j : ℤ, (2 : ℚ) ^ ((Nat.log2 n : ℤ) - (Nat.log2 d : ℤ) + j)
      = (2 : ℚ) ^ (Nat.log2 n) * 2 ^ j / (2 : ℚ) ^ (Nat.log2 d) := by
    intro j
    rw [zpow_add₀ (by norm_num), zpow_sub₀ (by norm_num), zpow_natCast, zpow_natCast]
    ring
  constructor
  · rw [sub_eq_add_neg _ (1 : ℤ), hk (-1), div_le_div_iff₀ (hp _) hdq]
    calc (2 : ℚ) ^ (Nat.log2 n) * 2 ^ (-1 : ℤ) * d
        ≤ (2 : ℚ) ^ (Nat.log2 n) * 2 ^ (-1 : ℤ) * 2 ^ (Nat.log2 d + 1) := by
          apply mul_le_mul_of_nonneg_left hb2.le
          positivity
      _ = (2 : ℚ) ^ (Nat.log2 n) * 2 ^ (Nat.log2 d) := by
          rw [pow_succ]; norm_num; ring
      _ ≤ (n : ℚ) * 2 ^ (Nat.log2 d) := by
          apply mul_le_mul_of_nonneg_right ha1 (hp _).le
  · rw [hk 1, div_lt_div_iff₀ hdq (hp _)]
    calc (n : ℚ) * 2 ^ (Nat.log2 d)
        ≤ (n : ℚ) * d := by
          apply mul_le_mul_of_nonneg_left hb1 hnq.le
      _ < (2 : ℚ) ^ (Nat.log2 n + 1) * d := by
          apply mul_lt_mul_of_pos_right ha2 hdq
      _ = (2 : ℚ) ^ (Nat.log2 n) * 2 ^ (1 : ℤ) * d := by
          rw [pow_succ]; norm_num

theorem ilog2_spec {q : ℚ} (hq : 0 < q) :
    (2 : ℚ) ^ ilog2 q ≤ q ∧ q < (2 : ℚ) ^ (ilog2 q + 1) := by
  have hnum : 0 < q.num := Rat.num_pos.2 hq
  have hna : ((q.num.natAbs : ℕ) : ℚ) = (q.num : ℚ) := by
    rw [Nat.cast_natAbs, abs_of_pos hnum]
  have hq' : (q.num.natAbs : ℚ) / (q.den : ℚ) = q := by
    rw [hna]
    exact Rat.num_div_den q
  have hb := log2_bracket q.num.natAbs q.den (by omega) q.den_pos
  rw [hq'] at hb
  unfold ilog2
  dsimp only
  split_ifs with hle
  · exact ⟨hle, hb.2⟩
  · refine ⟨hb.1, ?_⟩
    have : (Nat.log2 q.num.natAbs : ℤ) - (Nat.log2 q.den : ℤ) - 1 + 1
        = (Nat.log2 q.num.natAbs : ℤ) - (Nat.log2 q.den : ℤ) := by ring
    rw [this]
    exact not_le.1 hle

theorem ilog2_eq {q : ℚ} (hq : 0 < q) {L : ℤ} (h1 : (2 : ℚ) ^ L ≤ q)
    (h2 : q < (2 : ℚ) ^ (L + 1)) : ilog2 q = L := by
  obtain ⟨s1, s2⟩ := ilog2_spec hq
  have a := two_zpow_lt_iff.1 (lt_of_le_of_lt h1 s2)
  have b := two_zpow_lt_iff.1 (lt_of_le_of_lt s1 h2)
  omega

theorem ilog2_lt_of_lt {q : ℚ} (hq : 0 < q) {N : ℤ} (h : q < (2 : ℚ) ^ N) : ilog2 q < N :=
  two_zpow_lt_iff.1 (lt_of_le_of_lt (ilog2_spec hq).1 h)

theorem ilog2_mono {x y : ℚ} (hx : 0 < x) (hxy : x ≤ y) : ilog2 x ≤ ilog2 y := by
  have := ilog2_lt_of_lt hx (lt_of_le_of_lt hxy (ilog2_spec (lt_of_lt_of_le hx hxy)).2)
  omega

theorem roundFin_of_pos {q : ℚ} (hq : 0 < q) :
    roundFin q = (roundHalfEven (q / 2 ^ ulpExp q) : ℚ) * 2 ^ ulpExp q := by
  unfold roundFin
  rw [if_neg hq.ne']

/-- A multiple of `2 ^ e'` is a multiple of every smaller power of two. -/
theorem grid_refine (j : ℤ) {e e' : ℤ} (h : e ≤ e') :
    ∃ J : ℤ, (j : ℚ) * 2 ^ e' = (J : ℚ) * 2 ^ e := by
  refine ⟨j * 2 ^ (e' - e).toNat, ?_⟩
  have h2 : ((2 : ℚ) ^ (e' - e).toNat) = (2 : ℚ) ^ (e' - e) := by
    rw [← zpow_natCast, Int.toNat_of_nonneg (by omega)]
  push_cast
  rw [h2, mul_assoc, ← zpow_add₀ (by norm_num)]
  congr 2
  ring

theorem roundFin_le_grid {q : ℚ} (hq : 0 < q) (j e' : ℤ) (he : ulpExp q ≤ e')
    (h : q ≤ (j : ℚ) * 2 ^ e') : roundFin q ≤ (j : ℚ) * 2 ^ e' := by
  obtain ⟨J, hJ⟩ := grid_refine j he
  rw [hJ] at h ⊢
  rw [roundFin_of_pos hq]
  have hpos := two_zpow_pos (ulpExp q)
  have h1 : q / 2 ^ ulpExp q ≤ (J : ℚ) := (div_le_iff₀ hpos).2 h
  have h2 : roundHalfEven (q / 2 ^ ulpExp q) ≤ J := by
    have := roundHalfEven_mono h1
    rwa [roundHalfEven_intCast] at this
  have h3 : (roundHalfEven (q / 2 ^ ulpExp q) : ℚ) ≤ (J : ℚ) := by exact_mod_cast h2
  exact mul_le_mul_of_nonneg_right h3 hpos.le

theorem grid_le_roundFin {q : ℚ} (hq : 0 < q) (j e' : ℤ) (he : ulpExp q ≤ e')
    (h : (j : ℚ) * 2 ^ e' ≤ q) : (j : ℚ) * 2 ^ e' ≤ roundFin q := by
  obtain ⟨J, hJ⟩ := grid_refine j he
  rw [hJ] at h ⊢
  rw [roundFin_of_pos hq]
  have hpos := two_zpow_pos (ulpExp q)
  have h1 : (J : ℚ) ≤ q / 2 ^ ulpExp q := (le_div_iff₀ hpos).2 h
  have h2 : J ≤ roundHalfEven (q / 2 ^ ulpExp q) := by
    have := roundHalfEven_mono h1
    rwa [roundHalfEven_intCast] at this
  have h3 : (J : ℚ) ≤ (roundHalfEven (q / 2 ^ ulpExp q) : ℚ) := by exact_mod_cast h2
  exact mul_le_mul_of_nonneg_right h3 hpos.le

theorem ulpExp_le {q : ℚ} (hq : 0 < q) {e' : ℤ} (h1 : -1074 ≤ e')
    (h2 : q < (2 : ℚ) ^ (e' + 53)) : ulpExp q ≤ e' := by
  unfold ulpExp
  rw [abs_of_pos hq]
  have := ilog2_lt_of_lt hq h2
  exact max_le (by omega) h1

/-- A value with at most 53 significant bits, at or above the subnormal spacing, is a
binary64 value: rounding leaves it as it is. -/
theorem roundFin_exact (m : ℕ) (e' : ℤ) (hm : m < 2 ^ 53) (he : -1074 ≤ e') :
    roundFin ((m : ℚ) * 2 ^ e') = (m : ℚ) * 2 ^ e' := by
  rcases Nat.eq_zero_or_pos m with h0 | hpos
  · subst h0
    simp [roundFin]
  · have hp := two_zpow_pos e'
    have hm0 : (0 : ℚ) < (m : ℚ) := by exact_mod_cast hpos
    have hq : (0 : ℚ) < (m : ℚ) * 2 ^ e' := mul_pos hm0 hp
    have hlt : (m : ℚ) * 2 ^ e' < (2 : ℚ) ^ (e' + 53) := by
      rw [zpow_add₀ (by norm_num), mul_comm ((2 : ℚ) ^ e')]
      apply mul_lt_mul_of_pos_right _ hp
      have h53 : (m : ℚ) < ((2 ^ 53 : ℕ) : ℚ) := by exact_mod_cast hm
      have e53 : (((2 : ℕ) ^ 53 : ℕ) : ℚ) = (2 : ℚ) ^ (53 : ℤ) := by norm_num
      rwa [e53] at h53
    have hu := ulpExp_le hq he hlt
    have hc : ((m : ℤ) : ℚ) = (m : ℚ) := by simp
    have a := roundFin_le_grid hq (m : ℤ) e' hu (by rw [hc])
    have b := grid_le_roundFin hq (m : ℤ) e' hu (by rw [hc])
    rw [hc] at a b
    exact le_antisymm a b

theorem roundFin_exact_nat (m : ℕ) (hm : m < 2 ^ 53) : roundFin (m : ℚ) = (m : ℚ) := by
  have := roundFin_exact m 0 hm (by norm_num)
  simpa using this

theorem roundFin_nonneg {q : ℚ} (hq : 0 ≤ q) : 0 ≤ roundFin q := by
  rcases eq_or_lt_of_le hq with h0 | hpos
  · rw [← h0]
    simp [roundFin]
  · have := grid_le_roundFin hpos 0 (ulpExp q) le_rfl (by simpa using hpos.le)
    simpa using this

/-- Rounding to binary64 is monotone (stated on the non-negative values). -/
theorem roundFin_mono {x y : ℚ} (hx : 0 ≤ x) (hxy : x ≤ y) : roundFin x ≤ roundFin y := by
  rcases eq_or_lt_of_le hx with h0 | hpos
  · rw [← h0]
    have : roundFin 0 = 0 := by simp [roundFin]
    rw [this]
    exact roundFin_nonneg (hx.trans hxy)
  · have hy : 0 < y := lt_of_lt_of_le hpos hxy
    have hL := ilog2_mono hpos hxy
    have hex : ulpExp x = max (ilog2 x - 52) (-1074) := by
      unfold ulpExp
      rw [abs_of_pos hpos]
    have hey : ulpExp y = max (ilog2 y - 52) (-1074) := by
      unfold ulpExp
      rw [abs_of_pos hy]
    have hle : ulpExp x ≤ ulpExp y := by
      rw [hex, hey]
      exact max_le_max (by omega) le_rfl
    rcases eq_or_lt_of_le hle with heq | hlt
    · rw [roundFin_of_pos hpos, roundFin_of_pos hy, heq]
      have hp := two_zpow_pos (ulpExp y)
      have h1 : x / 2 ^ ulpExp y ≤ y / 2 ^ ulpExp y := div_le_div_of_nonneg_right hxy hp.le
      have h2 := roundHalfEven_mono h1
      have h3 : (roundHalfEven (x / 2 ^ ulpExp y) : ℚ) ≤ (roundHalfEven (y / 2 ^ ulpExp y) : ℚ) := by
        exact_mod_cast h2
      exact mul_le_mul_of_nonneg_right h3 hp.le
    · have hey' : ulpExp y = ilog2 y - 52 := by
        rw [hey]
        rw [hex, hey] at hlt
        have h1 : (-1074 : ℤ) ≤ max (ilog2 x - 52) (-1074) := le_max_right _ _
        rcases max_cases (ilog2 y - 52) (-1074) with ⟨hm, _⟩ | ⟨hm, _⟩
        · exact hm
        · rw [hm] at hlt
          omega
      have hxL : ilog2 x + 1 ≤ ilog2 y := by
        have h1 : ilog2 x - 52 ≤ ulpExp x := by
          rw [hex]
          exact le_max_left _ _
        omega
      have hgrid : ((2 ^ 52 : ℤ) : ℚ) * 2 ^ ulpExp y = (2 : ℚ) ^ ilog2 y := by
        rw [hey']
        have : (((2 : ℤ) ^ 52 : ℤ) : ℚ) = (2 : ℚ) ^ (52 : ℤ) := by norm_num
        rw [this, ← zpow_add₀ (by norm_num)]
        congr 1
        ring
      have hxc : x ≤ ((2 ^ 52 : ℤ) : ℚ) * 2 ^ ulpExp y := by
        rw [hgrid]
        exact ((ilog2_spec hpos).2.le).trans (two_zpow_le hxL)
      have hcy : ((2 ^ 52 : ℤ) : ℚ) * 2 ^ ulpExp y ≤ y := by
        rw [hgrid]
        exact (ilog2_spec hy).1
      exact (roundFin_le_grid hpos _ _ hle hxc).trans (grid_le_roundFin hy _ _ le_rfl hcy)

theorem roundF64_eq_fin {q : ℚ} (h0 : 0 ≤ q) (h1 : q ≤ (2 : ℚ) ^ (1023 : ℤ)) :
    roundF64 q = .fin (roundFin q) := by
  have hexact : roundFin ((2 : ℚ) ^ (1023 : ℤ)) = (2 : ℚ) ^ (1023 : ℤ) := by
    have := roundFin_exact 1 1023 (by norm_num) (by norm_num)
    simpa using this
  have hle : roundFin q ≤ (2 : ℚ) ^ (1023 : ℤ) := by
    have := roundFin_mono h0 h1
    rwa [hexact] at this
  have hnn := roundFin_nonneg h0
  have hlt : (2 : ℚ) ^ (1023 : ℤ) < (2 : ℚ) ^ (1024 : ℤ) := two_zpow_lt_iff.2 (by norm_num)
  have hpos := two_zpow_pos 1024
  unfold roundF64
  dsimp only
  rw [if_neg (by linarith), if_neg (by linarith)]



theorem div_fin_fin (a b : ℚ) :
    F64.div (.fin a) (.fin b)
      = if b = 0 then (if a = 0 then .nan else if 0 < a then .posInf else .negInf)
        else roundF64 (a / b) := rfl

theorem mul_fin_fin (a b : ℚ) : F64.mul (.fin a) (.fin b) = roundF64 (a * b) := rfl

theorem ofInt_natCast (n : ℕ) (h : n < 2 ^ 53) : F64.ofInt (n : ℤ) = .fin (n : ℚ) := by
  unfold F64.ofInt
  have hq : ((n : ℤ) : ℚ) = (n : ℚ) := by simp
  have h0 : (0 : ℚ) ≤ (n : ℚ) := by exact_mod_cast Nat.zero_le n
  have h1 : (n : ℚ) ≤ (2 : ℚ) ^ (1023 : ℤ) := by
    have a : (n : ℚ) ≤ ((2 ^ 53 : ℕ) : ℚ) := by exact_mod_cast h.le
    have e53 : (((2 : ℕ) ^ 53 : ℕ) : ℚ) = (2 : ℚ) ^ (53 : ℤ) := by norm_num
    rw [e53] at a
    exact a.trans (two_zpow_le (by norm_num))
  rw [hq, roundF64_eq_fin h0 h1, roundFin_exact_nat n h]

/-- `wordCount` is `floor(0.75 * T)` when the token count is below `2 ^ 51`. -/
theorem wordCount_eq (indef : F64 → ℤ) (doc : Document) (hT : doc.Tokens.length < 2 ^ 51) :
    wordCount indef doc = ((3 * doc.Tokens.length / 4 : ℕ) : ℤ) := by
  unfold wordCount
  rw [ofInt_natCast _ (by omega)]
  have hprod : ((doc.Tokens.length : ℕ) : ℚ) * (3 / 4)
      = ((3 * doc.Tokens.length : ℕ) : ℚ) * 2 ^ (-2 : ℤ) := by
    push_cast
    norm_num
    ring
  have h3 : 3 * doc.Tokens.length < 2 ^ 53 := by omega
  have h0 : (0 : ℚ) ≤ ((3 * doc.Tokens.length : ℕ) : ℚ) * 2 ^ (-2 : ℤ) := by positivity
  have h1 : ((3 * doc.Tokens.length : ℕ) : ℚ) * 2 ^ (-2 : ℤ) ≤ (2 : ℚ) ^ (1023 : ℤ) := by
    have a : ((3 * doc.Tokens.length : ℕ) : ℚ) ≤ ((2 ^ 53 : ℕ) : ℚ) := by exact_mod_cast h3.le
    have e53 : (((2 : ℕ) ^ 53 : ℕ) : ℚ) = (2 : ℚ) ^ (53 : ℤ) := by norm_num
    rw [e53] at a
    have b : ((3 * doc.Tokens.length : ℕ) : ℚ) * 2 ^ (-2 : ℤ)
        ≤ ((3 * doc.Tokens.length : ℕ) : ℚ) := by
      have : (2 : ℚ) ^ (-2 : ℤ) ≤ 1 := by norm_num
      have hnn : (0 : ℚ) ≤ ((3 * doc.Tokens.length : ℕ) : ℚ) := by positivity
      nlinarith
    exact b.trans (a.trans (two_zpow_le (by norm_num)))
  have hmul : F64.mul (.fin (doc.Tokens.length : ℚ)) (.fin (3 / 4))
      = .fin (((3 * doc.Tokens.length : ℕ) : ℚ) * 2 ^ (-2 : ℤ)) := by
    rw [mul_fin_fin, hprod, roundF64_eq_fin h0 h1, roundFin_exact _ _ h3 (by norm_num)]
  rw [hmul]
  have htr : truncQ (((3 * doc.Tokens.length : ℕ) : ℚ) * 2 ^ (-2 : ℤ))
      = ((3 * doc.Tokens.length / 4 : ℕ) : ℤ) := by
    unfold truncQ
    rw [if_pos h0]
    have : ((3 * doc.Tokens.length : ℕ) : ℚ) * 2 ^ (-2 : ℤ)
        = (((3 * doc.Tokens.length : ℕ) : ℤ) : ℚ) / ((4 : ℕ) : ℚ) := by
      push_cast
      norm_num
      ring
    rw [this, Rat.floor_intCast_div_natCast]
    norm_cast
  unfold F64.toInt64
  dsimp only
  rw [htr, if_pos]
  constructor
  · have : (0 : ℤ) ≤ ((3 * doc.Tokens.length / 4 : ℕ) : ℤ) := Int.natCast_nonneg _
    have h2 : -(2 : ℤ) ^ 63 ≤ 0 := by norm_num
    exact h2.trans this
  · have : 3 * doc.Tokens.length / 4 < 2 ^ 63 := by omega
    exact_mod_cast this

theorem ofInt_zero : F64.ofInt 0 = .fin 0 := by
  have := ofInt_natCast 0 (by norm_num)
  simpa using this

/-- The number of words as the specification writes it, `floor(0.75 * T)`. -/
theorem floor_three_quarters (T : ℕ) : ⌊(3 / 4 : ℚ) * (T : ℚ)⌋₊ = 3 * T / 4 := by
  have : (3 / 4 : ℚ) * (T : ℚ) = ((3 * T : ℕ) : ℚ) / ((4 : ℕ) : ℚ) := by
    push_cast
    ring
  rw [this, Nat.floor_div_eq_div]

/-- The float64 quotient `float64(W) / float64(S)` compares with `20` as the exact quotient
does, for a sentence count between `1` and `2 ^ 48`. -/
theorem roundFin_div_le_twenty (W S : ℕ) (hS1 : 1 ≤ S) (hS2 : S ≤ 2 ^ 48) :
    roundFin ((W : ℚ) / (S : ℚ)) ≤ 20 ↔ (W : ℚ) / (S : ℚ) ≤ 20 := by
  have hSq : (0 : ℚ) < (S : ℚ) := by exact_mod_cast hS1
  have hnn : (0 : ℚ) ≤ (W : ℚ) / (S : ℚ) := by positivity
  have h20 : roundFin (20 : ℚ) = 20 := by
    have := roundFin_exact_nat 20 (by norm_num)
    simpa using this
  constructor
  · intro h
    by_contra hcon
    have hlt : (20 : ℚ) < (W : ℚ) / (S : ℚ) := not_le.1 hcon
    have hlt' : (20 : ℚ) * (S : ℚ) < (W : ℚ) := (lt_div_iff₀ hSq).1 hlt
    have hnat : 20 * S + 1 ≤ W := by
      have : 20 * S < W := by exact_mod_cast hlt'
      omega
    have hS48 : (S : ℚ) ≤ (2 : ℚ) ^ (48 : ℤ) := by
      have : (S : ℚ) ≤ ((2 ^ 48 : ℕ) : ℚ) := by exact_mod_cast hS2
      have e48 : (((2 : ℕ) ^ 48 : ℕ) : ℚ) = (2 : ℚ) ^ (48 : ℤ) := by norm_num
      rwa [e48] at this
    have hinv : (2 : ℚ) ^ (-48 : ℤ) * (S : ℚ) ≤ 1 := by
      have : (2 : ℚ) ^ (-48 : ℤ) * (2 : ℚ) ^ (48 : ℤ) = 1 := by
        rw [← zpow_add₀ (by norm_num)]
        norm_num
      calc (2 : ℚ) ^ (-48 : ℤ) * (S : ℚ) ≤ (2 : ℚ) ^ (-48 : ℤ) * (2 : ℚ) ^ (48 : ℤ) :=
            mul_le_mul_of_nonneg_left hS48 (two_zpow_pos _).le
        _ = 1 := this
    have hgrid : (((20 * 2 ^ 48 + 1 : ℕ) : ℚ)) * 2 ^ (-48 : ℤ) = 20 + 2 ^ (-48 : ℤ) := by
      norm_num
    have hc : (((20 * 2 ^ 48 + 1 : ℕ) : ℚ)) * 2 ^ (-48 : ℤ) ≤ (W : ℚ) / (S : ℚ) := by
      rw [le_div_iff₀ hSq, hgrid]
      have hW' : ((20 * S + 1 : ℕ) : ℚ) ≤ (W : ℚ) := by exact_mod_cast hnat
      push_cast at hW'
      linarith
    have hexact := roundFin_exact (20 * 2 ^ 48 + 1) (-48) (by norm_num) (by norm_num)
    have hmono := roundFin_mono (by positivity) hc
    rw [hexact] at hmono
    have hgt : (20 : ℚ) < (((20 * 2 ^ 48 + 1 : ℕ) : ℚ)) * 2 ^ (-48 : ℤ) := by
      rw [hgrid]
      linarith [two_zpow_pos (-48)]
    linarith
  · intro h
    have := roundFin_mono hnn h
    rwa [h20] at this

/-- The float64 test `averageSentenceLength <= 20` of the source decides `W / S ≤ 20` for
`W = 3 * T / 4`, under the size bounds. -/
theorem averageSentenceLength_le_twenty (indef : F64 → ℤ) (doc : Document)
    (hT : doc.Tokens.length < 2 ^ 51) (hS1 : 1 ≤ doc.Sentences.length)
    (hS2 : doc.Sentences.length ≤ 2 ^ 48) :
    F64.le (averageSentenceLength indef doc) (.fin 20)
      = decide (((3 * doc.Tokens.length / 4 : ℕ) : ℚ) / (doc.Sentences.length : ℚ) ≤ 20) := by
  have hW : 3 * doc.Tokens.length / 4 < 2 ^ 53 := by omega
  have hSq : (0 : ℚ) < (doc.Sentences.length : ℚ) := by exact_mod_cast hS1
  have hWq : ((3 * doc.Tokens.length / 4 : ℕ) : ℚ) ≤ (2 : ℚ) ^ (53 : ℤ) := by
    have a : ((3 * doc.Tokens.length / 4 : ℕ) : ℚ) ≤ ((2 ^ 53 : ℕ) : ℚ) := by
      exact_mod_cast hW.le
    have e53 : (((2 : ℕ) ^ 53 : ℕ) : ℚ) = (2 : ℚ) ^ (53 : ℤ) := by norm_num
    rwa [e53] at a
  have h0 : (0 : ℚ) ≤ ((3 * doc.Tokens.length / 4 : ℕ) : ℚ) / (doc.Sentences.length : ℚ) := by
    positivity
  have h1 : ((3 * doc.Tokens.length / 4 : ℕ) : ℚ) / (doc.Sentences.length : ℚ)
      ≤ (2 : ℚ) ^ (1023 : ℤ) := by
    have hone : (1 : ℚ) ≤ (doc.Sentences.length : ℚ) := by exact_mod_cast hS1
    have : ((3 * doc.Tokens.length / 4 : ℕ) : ℚ) / (doc.Sentences.length : ℚ)
        ≤ ((3 * doc.Tokens.length / 4 : ℕ) : ℚ) :=
      div_le_self (by positivity) hone
    exact this.trans (hWq.trans (two_zpow_le (by norm_num)))
  unfold averageSentenceLength
  rw [wordCount_eq indef doc hT, ofInt_natCast _ hW, ofInt_natCast _ (by omega)]
  have hdiv : F64.div (.fin ((3 * doc.Tokens.length / 4 : ℕ) : ℚ))
        (.fin (doc.Sentences.length : ℚ))
      = .fin (roundFin (((3 * doc.Tokens.length / 4 : ℕ) : ℚ) / (doc.Sentences.length : ℚ))) := by
    rw [div_fin_fin, if_neg hSq.ne', roundF64_eq_fin h0 h1]
  rw [hdiv]
  show decide _ = decide _
  exact decide_eq_decide.2 (roundFin_div_le_twenty _ _ hS1 hS2)

/-- For a token count within Go's `int`, `wordCount` is the result of an in-range
conversion and is not negative. -/
theorem wordCount_bounds (indef : F64 → ℤ) (doc : Document)
    (hT : doc.Tokens.length < 2 ^ 63) :
    0 ≤ wordCount indef doc ∧ wordCount indef doc < 2 ^ 63 := by
  have hTq : ((doc.Tokens.length : ℤ) : ℚ) = (doc.Tokens.length : ℚ) := by simp
  have hT0 : (0 : ℚ) ≤ (doc.Tokens.length : ℚ) := by positivity
  have hT63 : (doc.Tokens.length : ℚ) ≤ (2 : ℚ) ^ (63 : ℤ) := by
    have a : (doc.Tokens.length : ℚ) ≤ ((2 ^ 63 : ℕ) : ℚ) := by exact_mod_cast hT.le
    have e63 : (((2 : ℕ) ^ 63 : ℕ) : ℚ) = (2 : ℚ) ^ (63 : ℤ) := by norm_num
    rwa [e63] at a
  have hr1 : roundFin (doc.Tokens.length : ℚ) ≤ (2 : ℚ) ^ (63 : ℤ) := by
    have hex := roundFin_exact 1 63 (by norm_num) (by norm_num)
    rw [Nat.cast_one, one_mul] at hex
    have := roundFin_mono hT0 hT63
    rwa [hex] at this
  have hr1' := roundFin_nonneg hT0
  have hp0 : (0 : ℚ) ≤ roundFin (doc.Tokens.length : ℚ) * (3 / 4) := by positivity
  have hp1 : roundFin (doc.Tokens.length : ℚ) * (3 / 4) ≤ ((3 : ℕ) : ℚ) * 2 ^ (61 : ℤ) := by
    have e : ((3 : ℕ) : ℚ) * 2 ^ (61 : ℤ) = (2 : ℚ) ^ (63 : ℤ) * (3 / 4) := by norm_num
    rw [e]
    exact mul_le_mul_of_nonneg_right hr1 (by norm_num)
  have hr2 : roundFin (roundFin (doc.Tokens.length : ℚ) * (3 / 4))
      ≤ ((3 : ℕ) : ℚ) * 2 ^ (61 : ℤ) := by
    have hex := roundFin_exact 3 61 (by norm_num) (by norm_num)
    have := roundFin_mono hp0 hp1
    rwa [hex] at this
  have hr2' := roundFin_nonneg hp0
  have hbig : ((3 : ℕ) : ℚ) * 2 ^ (61 : ℤ) ≤ (2 : ℚ) ^ (1023 : ℤ) := by
    have e : ((3 : ℕ) : ℚ) * 2 ^ (61 : ℤ) ≤ (2 : ℚ) ^ (63 : ℤ) := by norm_num
    exact e.trans (two_zpow_le (by norm_num))
  unfold wordCount F64.ofInt
  rw [hTq, roundF64_eq_fin hT0 (hT63.trans (two_zpow_le (by norm_num))), mul_fin_fin,
    roundF64_eq_fin hp0 (hp1.trans hbig)]
  have htr : truncQ (roundFin (roundFin (doc.Tokens.length : ℚ) * (3 / 4)))
      = ⌊roundFin (roundFin (doc.Tokens.length : ℚ) * (3 / 4))⌋ := by
    unfold truncQ
    rw [if_pos hr2']
  have hf0 : 0 ≤ ⌊roundFin (roundFin (doc.Tokens.length : ℚ) * (3 / 4))⌋ :=
    Int.floor_nonneg.2 hr2'
  have hf1 : ⌊roundFin (roundFin (doc.Tokens.length : ℚ) * (3 / 4))⌋ < 2 ^ 63 := by
    have h1 : ((⌊roundFin (roundFin (doc.Tokens.length : ℚ) * (3 / 4))⌋ : ℤ) : ℚ)
        ≤ ((3 : ℕ) : ℚ) * 2 ^ (61 : ℤ) := (Int.floor_le _).trans hr2
    have h2 : ((3 : ℕ) : ℚ) * 2 ^ (61 : ℤ) = (((3 * 2 ^ 61 : ℤ)) : ℚ) := by norm_num
    rw [h2] at h1
    have h3 : ⌊roundFin (roundFin (doc.Tokens.length : ℚ) * (3 / 4))⌋ ≤ 3 * 2 ^ 61 := by
      exact_mod_cast h1
    omega
  unfold F64.toInt64
  dsimp only
  rw [htr, if_pos ⟨by omega, hf1⟩]
  exact ⟨hf0, hf1⟩

/-- With no sentence the float64 quotient is `+Inf` or NaN, and the test
`averageSentenceLength <= 20` is false. -/
theorem averageSentenceLength_no_sentence (indef : F64 → ℤ) (doc : Document)
    (hT : doc.Tokens.length < 2 ^ 63) (hS : doc.Sentences.length = 0) :
    F64.le (averageSentenceLength indef doc) (.fin 20) = false := by
  obtain ⟨hW0, hW1⟩ := wordCount_bounds indef doc hT
  have hq0 : (0 : ℚ) ≤ ((wordCount indef doc : ℤ) : ℚ) := by exact_mod_cast hW0
  have hq1 : ((wordCount indef doc : ℤ) : ℚ) ≤ (2 : ℚ) ^ (1023 : ℤ) := by
    have a : ((wordCount indef doc : ℤ) : ℚ) ≤ (((2 : ℤ) ^ 63 : ℤ) : ℚ) := by
      exact_mod_cast hW1.le
    have e63 : ((((2 : ℤ) ^ 63 : ℤ)) : ℚ) = (2 : ℚ) ^ (63 : ℤ) := by norm_num
    rw [e63] at a
    exact a.trans (two_zpow_le (by norm_num))
  have hr := roundFin_nonneg hq0
  unfold averageSentenceLength
  rw [hS]
  have hz : F64.ofInt ((0 : ℕ) : ℤ) = .fin 0 := ofInt_zero
  rw [hz]
  unfold F64.ofInt
  rw [roundF64_eq_fin hq0 hq1, div_fin_fin, if_pos rfl]
  split_ifs with ha hb
  · rfl
  · rfl
  · exact absurd (lt_of_le_of_ne hr (Ne.symm ha)) hb

/-! ## Theorems: the estimate and the analysis -/

/-- The complexity factor as a lookup on the depth and on the exact average, under the
size bounds. -/
theorem complexity_eq (indef : F64 → ℤ) (doc : Document) (wpm : ℤ)
    (hT : doc.Tokens.length < 2 ^ 51) (hS1 : 1 ≤ doc.Sentences.length)
    (hS2 : doc.Sentences.length ≤ 2 ^ 48) :
    (GetComplexityAndReadingTimeEstimate indef doc wpm).complexity
      = if maxSyntacticDepth doc.Tokens ≤ 4 then
          (if specAverageSentenceLength doc ≤ 20 then .fin 1 else .fin (3 / 2))
        else
          (if specAverageSentenceLength doc ≤ 20 then .fin (3 / 2) else .fin 2) := by
  unfold GetComplexityAndReadingTimeEstimate specAverageSentenceLength specWordCount
  dsimp only
  rw [averageSentenceLength_le_twenty indef doc hT hS1 hS2, floor_three_quarters]
  by_cases h : ((3 * doc.Tokens.length / 4 : ℕ) : ℚ) / (doc.Sentences.length : ℚ) ≤ 20
  · simp only [h, decide_True, if_true]
  · simp only [h, decide_False, if_false, Bool.false_eq_true]

theorem maxSyntacticDepth_plainDoc : maxSyntacticDepth plainDoc.Tokens = 0 := by
  apply scan_foldl_no_terminal
  intro t ht
  have := List.eq_of_mem_replicate ht
  subst this
  decide

theorem complexity_plainDoc (indef : F64 → ℤ) (wpm : ℤ) :
    (GetComplexityAndReadingTimeEstimate indef plainDoc wpm).complexity = .fin 1 := by
  have hT : plainDoc.Tokens.length = 100 := by simp [plainDoc]
  have hS : plainDoc.Sentences.length = 5 := by simp [plainDoc]
  rw [complexity_eq indef plainDoc wpm (by rw [hT]; norm_num) (by rw [hS]; norm_num)
    (by rw [hS]; norm_num), maxSyntacticDepth_plainDoc]
  have havg : specAverageSentenceLength plainDoc ≤ 20 := by
    unfold specAverageSentenceLength specWordCount
    rw [floor_three_quarters, hT, hS]
    norm_num
  simp only [Nat.zero_le, havg, if_true]

/-- C4 (as amended): with no sentence (and a token count within Go's `int`) the estimator
does not fail: it returns the nil error, and the complexity factor `1.5` when
`maxSyntacticDepth ≤ 4` and `2.0` otherwise, the division by the zero sentence count
giving `+Inf` or NaN, which is not `<= 20`. -/
theorem estimate_no_sentence (indef : F64 → ℤ) (doc : Document) (wpm : ℤ)
    (hS : doc.Sentences.length = 0) (hT : doc.Tokens.length < 2 ^ 63) :
    (GetComplexityAndReadingTimeEstimate indef doc wpm).err = none
    ∧ (GetComplexityAndReadingTimeEstimate indef doc wpm).complexity
        = if maxSyntacticDepth doc.Tokens ≤ 4 then .fin (3 / 2) else .fin 2 := by
  refine ⟨rfl, ?_⟩
  unfold GetComplexityAndReadingTimeEstimate
  dsimp only
  rw [averageSentenceLength_no_sentence indef doc hT hS]
  simp only [Bool.false_eq_true, if_false]

theorem estimate_no_sentence_witness :
    noSentenceDoc.Sentences.length = 0
    ∧ (GetComplexityAndReadingTimeEstimate indefAmd64 noSentenceDoc 200).err = none
    ∧ (GetComplexityAndReadingTimeEstimate indefAmd64 noSentenceDoc 200).complexity
        = if maxSyntacticDepth noSentenceDoc.Tokens ≤ 4 then .fin (3 / 2) else .fin 2 :=
  ⟨rfl, estimate_no_sentence indefAmd64 noSentenceDoc 200 rfl (by decide)⟩

/-- C4 (counterexample to the claim as stated): on a document with one token and no
sentence the estimator returns the nil error. -/
theorem estimate_no_sentence_counterexample :
    noSentenceDoc.Sentences.length = 0
    ∧ (GetComplexityAndReadingTimeEstimate indefAmd64 noSentenceDoc 200).err = none :=
  ⟨rfl, rfl⟩

/-- C5: for at least one sentence (at most `2 ^ 48` of them) and fewer than `2 ^ 51`
tokens, with `W = floor(0.75 * T)` and the exact average `W / S`, the complexity factor is
`1.0` when `maxSyntacticDepth ≤ 4` and the average is at most `20`, `1.5` when exactly one
of the two thresholds is exceeded, `2.0` when both are; it is one of these three values,
and the returned error is nil. -/
theorem complexity_lookup (indef : F64 → ℤ) (doc : Document) (wpm : ℤ)
    (hS1 : 1 ≤ doc.Sentences.length) (hS2 : doc.Sentences.length ≤ 2 ^ 48)
    (hT : doc.Tokens.length < 2 ^ 51) :
    (maxSyntacticDepth doc.Tokens ≤ 4 ∧ specAverageSentenceLength doc ≤ 20 →
        (GetComplexityAndReadingTimeEstimate indef doc wpm).complexity = .fin 1)
    ∧ (maxSyntacticDepth doc.Tokens ≤ 4 ∧ 20 < specAverageSentenceLength doc →
        (GetComplexityAndReadingTimeEstimate indef doc wpm).complexity = .fin (3 / 2))
    ∧ (4 < maxSyntacticDepth doc.Tokens ∧ specAverageSentenceLength doc ≤ 20 →
        (GetComplexityAndReadingTimeEstimate indef doc wpm).complexity = .fin (3 / 2))
    ∧ (4 < maxSyntacticDepth doc.Tokens ∧ 20 < specAverageSentenceLength doc →
        (GetComplexityAndReadingTimeEstimate indef doc wpm).complexity = .fin 2)
    ∧ ((GetComplexityAndReadingTimeEstimate indef doc wpm).complexity = .fin 1
        ∨ (GetComplexityAndReadingTimeEstimate indef doc wpm).complexity = .fin (3 / 2)
        ∨ (GetComplexityAndReadingTimeEstimate indef doc wpm).complexity = .fin 2)
    ∧ (GetComplexityAndReadingTimeEstimate indef doc wpm).err = none := by
  rw [complexity_eq indef doc wpm hT hS1 hS2]
  refine ⟨?_, ?_, ?_, ?_, ?_, rfl⟩
  · rintro ⟨hd, ha⟩
    rw [if_pos hd, if_pos ha]
  · rintro ⟨hd, ha⟩
    rw [if_pos hd, if_neg (not_le.2 ha)]
  · rintro ⟨hd, ha⟩
    rw [if_neg (not_le.2 hd), if_pos ha]
  · rintro ⟨hd, ha⟩
    rw [if_neg (not_le.2 hd), if_neg (not_le.2 ha)]
  · split_ifs
    · exact Or.inl rfl
    · exact Or.inr (Or.inl rfl)
    · exact Or.inr (Or.inl rfl)
    · exact Or.inr (Or.inr rfl)

theorem complexity_lookup_witness :
    maxSyntacticDepth plainDoc.Tokens ≤ 4 ∧ specAverageSentenceLength plainDoc ≤ 20
    ∧ (GetComplexityAndReadingTimeEstimate indefAmd64 plainDoc 200).complexity = .fin 1 :=
  have hd : maxSyntacticDepth plainDoc.Tokens ≤ 4 := by
    rw [maxSyntacticDepth_plainDoc]
    exact Nat.zero_le 4
  have ha : specAverageSentenceLength plainDoc ≤ 20 := by
    unfold specAverageSentenceLength specWordCount
    rw [floor_three_quarters]
    simp [plainDoc]
    norm_num
  ⟨hd, ha, (complexity_lookup indefAmd64 plainDoc 200 (by decide) (by decide) (by decide)).1
    ⟨hd, ha⟩⟩

theorem estimate_half (indef : F64 → ℤ) (doc : Document)
    (hT : doc.Tokens.length = 100) :
    (GetComplexityAndReadingTimeEstimate indef doc 200).estimate = .fin (1 / 2) := by
  unfold GetComplexityAndReadingTimeEstimate
  dsimp only
  rw [hT]
  have h100 : F64.ofInt ((100 : ℕ) : ℤ) = .fin ((100 : ℕ) : ℚ) :=
    ofInt_natCast 100 (by norm_num)
  have h200 : F64.ofInt ((200 : ℕ) : ℤ) = .fin ((200 : ℕ) : ℚ) :=
    ofInt_natCast 200 (by norm_num)
  have e200 : ((200 : ℕ) : ℤ) = 200 := rfl
  rw [e200] at h200
  rw [h100, h200, div_fin_fin, if_neg (by norm_num)]
  have hq : (((100 : ℕ) : ℚ)) / ((200 : ℕ) : ℚ) = ((1 : ℕ) : ℚ) * 2 ^ (-1 : ℤ) := by
    norm_num
  rw [hq, roundF64_eq_fin (by norm_num) (by norm_num),
    roundFin_exact 1 (-1) (by norm_num) (by norm_num)]
  norm_num

theorem toInt64_half_times_one (indef : F64 → ℤ) :
    F64.toInt64 indef (F64.mul (.fin (1 / 2)) (.fin 1)) = 0 := by
  have hq : (1 / 2 : ℚ) * 1 = ((1 : ℕ) : ℚ) * 2 ^ (-1 : ℤ) := by norm_num
  rw [mul_fin_fin, hq, roundF64_eq_fin (by norm_num) (by norm_num),
    roundFin_exact 1 (-1) (by norm_num) (by norm_num)]
  have htr : truncQ (((1 : ℕ) : ℚ) * 2 ^ (-1 : ℤ)) = 0 := by
    unfold truncQ
    rw [if_pos (by norm_num), Int.floor_eq_iff]
    constructor <;> norm_num
  unfold F64.toInt64
  dsimp only
  rw [htr, if_pos (by norm_num)]

/-- C6 (the code at the failing input): for a resource of kind 1, 2 or 3 whose content
tokenizes to 100 tokens with complexity factor `1.0`, and `wpm = 200`, `AnalyseResource`
succeeds and sets `ReadTime` to `0`, not to the 30 seconds of `0.5 * 1.0` minutes: the
product is cut to whole minutes before it is scaled by `time.Minute`. -/
theorem AnalyseResource_readTime_whole_minutes (tokenize : TokenizeFn) (indef : F64 → ℤ)
    (r : ReadingResource) (doc : Document)
    (htok : tokenize (stringsJoin r.RawContent " ") = .ok doc)
    (hkind : r.ResourceType = 1 ∨ r.ResourceType = 2 ∨ r.ResourceType = 3)
    (hT : doc.Tokens.length = 100)
    (hc : (GetComplexityAndReadingTimeEstimate indef doc 200).complexity = .fin 1) :
    AnalyseResource tokenize indef r 200 = ({ r with ReadTime := 0 }, none) := by
  have herr : (GetComplexityAndReadingTimeEstimate indef doc 200).err = none := rfl
  have hrt : wrap64 (F64.toInt64 indef
      (F64.mul (GetComplexityAndReadingTimeEstimate indef doc 200).estimate
        (GetComplexityAndReadingTimeEstimate indef doc 200).complexity) * timeMinute) = 0 := by
    rw [estimate_half indef doc hT, hc, toInt64_half_times_one]
    decide
  unfold AnalyseResource
  rw [htok]
  rcases hkind with h | h | h <;> simp only [h, herr, hrt]

theorem AnalyseResource_readTime_whole_minutes_witness :
    plainDoc.Tokens.length = 100
    ∧ plainDoc.Sentences.length = 5
    ∧ (sampleResource 1).ReadTime = 7
    ∧ AnalyseResource (constTokenize plainDoc) indefAmd64 (sampleResource 1) 200
        = ({ sampleResource 1 with ReadTime := 0 }, none) :=
  ⟨by decide, by decide, rfl,
    AnalyseResource_readTime_whole_minutes (constTokenize plainDoc) indefAmd64
      (sampleResource 1) plainDoc rfl (Or.inl rfl) (by decide)
      (complexity_plainDoc indefAmd64 200)⟩

/-- C8: when the tokenizer accepts the joined content, `AnalyseResource` dispatches on
the kind: kind 0 returns the nil error and leaves the resource as it was; kinds 1, 2 and 3
run the estimator and store in `ReadTime` the product of its two results, cut to whole
minutes, changing no other field; every other kind returns the `AnalyseError` with message
`Invalid resource type.` and leaves the resource as it was. -/
theorem AnalyseResource_dispatch (tokenize : TokenizeFn) (indef : F64 → ℤ)
    (r : ReadingResource) (wpm : ℤ) (doc : Document)
    (htok : tokenize (stringsJoin r.RawContent " ") = .ok doc) :
    (r.ResourceType = 0 → AnalyseResource tokenize indef r wpm = (r, none))
    ∧ (r.ResourceType = 1 ∨ r.ResourceType = 2 ∨ r.ResourceType = 3 →
        AnalyseResource tokenize indef r wpm
          = ({ r with ReadTime := wrap64 (F64.toInt64 indef
                (F64.mul (GetComplexityAndReadingTimeEstimate indef doc wpm).estimate
                  (GetComplexityAndReadingTimeEstimate indef doc wpm).complexity)
                * timeMinute) }, none))
    ∧ (3 < r.ResourceType →
        AnalyseResource tokenize indef r wpm
          = (r, some (.AnalyseError "Invalid resource type."))) := by
  have herr : (GetComplexityAndReadingTimeEstimate indef doc wpm).err = none := rfl
  unfold AnalyseResource
  rw [htok]
  refine ⟨?_, ?_, ?_⟩
  · intro h
    simp only [h]
  · intro h
    rcases h with h | h | h <;> simp only [h, herr]
  · intro h
    obtain ⟨n, hn⟩ : ∃ n, r.ResourceType = n + 4 := ⟨r.ResourceType - 4, by omega⟩
    simp only [hn]

theorem AnalyseResource_dispatch_witness :
    AnalyseResource (constTokenize plainDoc) indefAmd64 (sampleResource 0) 200
        = (sampleResource 0, none)
    ∧ AnalyseResource (constTokenize plainDoc) indefAmd64 (sampleResource 7) 200
        = (sampleResource 7, some (.AnalyseError "Invalid resource type.")) :=
  have h0 := AnalyseResource_dispatch (constTokenize plainDoc) indefAmd64
    (sampleResource 0) 200 plainDoc rfl
  have h7 := AnalyseResource_dispatch (constTokenize plainDoc) indefAmd64
    (sampleResource 7) 200 plainDoc rfl
  ⟨h0.1 rfl, h7.2.2 (by decide)⟩

end Nmrh
